import Mathlib

/-!
Verification development for the match-3 puzzle engine of this repository
(the swap-variant engine: board construction, run detection, special-piece
planning, chain expansion, the cascade-resolution loop, swap validation and
special-piece detonation).

The JavaScript source is shallowly embedded: the mutable 8x8 board becomes a
function from coordinates to optional pieces, imperative loops become folds or
structural recursions, and every source of nondeterminism (the random color
generator and the global monotonically increasing piece-id counter) is
externalized into oracle parameters.  The unbounded `while` loops of the source
(`expandWithSpecialExplosions` and `resolveMatchesAnimated`) are modelled with
explicit fuel; theorems below establish how much fuel suffices, or that no
finite fuel does.

Coordinate conventions follow the source: `x` is the column, `y` is the row,
the grid is 8x8 (the source constant `GRID = 8`), and the board is indexed as
`board y x` mirroring the source's `board[y][x]`.
-/

set_option maxHeartbeats 1000000

namespace Spojovacka

/-- Piece kinds, from the source constant `PIECE_KIND` (normal / rocket / bomb). -/
inductive Kind where
  | normal
  | rocket
  | bomb
deriving DecidableEq

/-- A board piece, from the source `Piece` typedef: a process-unique integer id,
a color index (the source palette has 6 colors), and a kind. -/
structure Piece where
  id : Nat
  color : Nat
  kind : Kind
deriving DecidableEq

/-- The board, from the source 2-D array `(Piece|null)[][]`: a cell either holds
a piece or is empty (`none`).  Indexed as `b y x`, mirroring `board[y][x]`.
Boards constructed by the embedded operations are `none` outside `[0,8)^2`. -/
def Board : Type := Nat → Nat → Option Piece

/-- Source `isInBounds(x, y)`: `x >= 0 && y >= 0 && x < GRID && y < GRID`,
on integer coordinates (blast areas can go negative). -/
def isInBounds (x y : Int) : Bool :=
  0 ≤ x && 0 ≤ y && x < 8 && y < 8

/-- Source `manhattan(a, b)`: `|a.x - b.x| + |a.y - b.y|`. -/
def manhattan (a b : Nat × Nat) : Nat :=
  ((a.1 : Int) - b.1).natAbs + ((a.2 : Int) - b.2).natAbs

/-- Source `cellKey(x, y)` produced the string key of a cell set; the embedding
keeps in-bounds integer coordinates as a `Nat` pair (out-of-bounds coordinates,
which the source never turns into keys at the places that matter, map to
`none`). -/
def cellKeyOf (c : Int × Int) : Option (Nat × Nat) :=
  if isInBounds c.1 c.2 then some (c.1.toNat, c.2.toNat) else none

/-- Source `rocketArea(center)`: the cell itself plus its four orthogonal
neighbors, in the push order of the source. -/
def rocketArea (center : Int × Int) : List (Int × Int) :=
  [ (center.1, center.2),
    (center.1 + 1, center.2),
    (center.1 - 1, center.2),
    (center.1, center.2 + 1),
    (center.1, center.2 - 1) ]

/-- Source `bombArea(center)`: all offsets `(dx, dy)` with `-2 ≤ dx, dy ≤ 2`
and `dx*dx + dy*dy ≤ 4` (the source fixes `r = 2`), scanned in the source's
`dy`-outer, `dx`-inner order. -/
def bombArea (center : Int × Int) : List (Int × Int) :=
  (List.range 5).flatMap (fun dyi =>
    (List.range 5).filterMap (fun dxi =>
      let dy : Int := (dyi : Int) - 2
      let dx : Int := (dxi : Int) - 2
      if dx * dx + dy * dy ≤ 4 then some (center.1 + dx, center.2 + dy) else none))

/-- Source `swapCells(a, b)`: exchange the contents of two cells. -/
def swapCells (b : Board) (p q : Nat × Nat) : Board :=
  fun y x =>
    if y = p.2 ∧ x = p.1 then b q.2 q.1
    else if y = q.2 ∧ x = q.1 then b p.2 p.1
    else b y x

/-! ## Run detection (`findMatchSegments`) -/

/-- One maximal same-color run found by the scanner, as `(start, length, color)`
in line coordinates. -/
abbrev Run := Nat × Nat × Nat

/-- The scanning loop of `findMatchSegments`, for one line.  The source scans
positions `0 .. GRID` (one past the end, where the cell reads as `null`),
tracking the current run's color (`runColor`, `none` for empty cells) and start
index; at every color change it emits the just-ended run when its length is at
least 3.  Here `l` is the remaining suffix of the line, `pos` the current
position, `rc` the current run color and `rs` its start. -/
def findRuns : List (Option Nat) → Nat → Option Nat → Nat → List Run
  | [], pos, rc, rs =>
      match rc with
      | some c => if 3 ≤ pos - rs then [(rs, pos - rs, c)] else []
      | none => []
  | c :: rest, pos, rc, rs =>
      if c = rc then
        findRuns rest (pos + 1) rc rs
      else
        (match rc with
         | some c0 => if 3 ≤ pos - rs then [(rs, pos - rs, c0)] else []
         | none => []) ++ findRuns rest (pos + 1) c pos

/-- The colors of row `y`, left to right (`null` cells read as `none`). -/
def rowLine (b : Board) (y : Nat) : List (Option Nat) :=
  (List.range 8).map (fun x => (b y x).map Piece.color)

/-- The colors of column `x`, top to bottom. -/
def colLine (b : Board) (x : Nat) : List (Option Nat) :=
  (List.range 8).map (fun y => (b y x).map Piece.color)

/-- Source `MatchSegment`: the ordered cells of a run, its color, and its
orientation (`horiz = true` for the horizontal scan). -/
structure Segment where
  cells : List (Nat × Nat)
  color : Nat
  horiz : Bool
deriving DecidableEq

/-- The horizontal half of `findMatchSegments`: for each row, each emitted run
`(s, len, c)` becomes the segment with cells `(s, y), (s+1, y), ...`. -/
def hSegments (b : Board) : List Segment :=
  (List.range 8).flatMap (fun y =>
    (findRuns (rowLine b y) 0 none 0).map (fun r =>
      ⟨(List.range r.2.1).map (fun i => (r.1 + i, y)), r.2.2, true⟩))

/-- The vertical half of `findMatchSegments`. -/
def vSegments (b : Board) : List Segment :=
  (List.range 8).flatMap (fun x =>
    (findRuns (colLine b x) 0 none 0).map (fun r =>
      ⟨(List.range r.2.1).map (fun i => (x, r.1 + i)), r.2.2, false⟩))

/-- Source `findMatchSegments()`: all horizontal runs (row by row), then all
vertical runs (column by column). -/
def findMatchSegments (b : Board) : List Segment :=
  hSegments b ++ vSegments b

/-! ## Special-piece planning (`computeSpecialCreations`) -/

/-- A special-piece creation record, from the source map values
`{x, y, kind, color}`. -/
structure Creation where
  x : Nat
  y : Nat
  kind : Kind
  color : Nat
deriving DecidableEq

/-- The creation map, keyed by cell. -/
abbrev CreationMap := List ((Nat × Nat) × Creation)

/-- Source `Map.set` on the creation map: overwrite the entry of an existing
key in place, otherwise append. -/
def mset (m : CreationMap) (k : Nat × Nat) (v : Creation) : CreationMap :=
  if (m.lookup k).isSome then
    m.map (fun p => if p.1 = k then (k, v) else p)
  else
    m ++ [(k, v)]

/-- The kind of the piece currently at cell `c`, or `none` for an empty or
out-of-array cell (the source reads `board[c.y]?.[c.x]`). -/
def kindAt (b : Board) (c : Nat × Nat) : Option Kind :=
  (b c.2 c.1).map Piece.kind

/-- The target-selection part of the `computeSpecialCreations` loop body, for
one qualifying segment: first a preferred cell inside the segment that holds a
Normal piece, else any preferred cell inside the segment, else the first
Normal-kind cell scanning forward from the middle index `len / 2` and wrapping
around, else the middle cell itself (the source's
`seg.cells[mid] ?? seg.cells[0]` default). -/
def chooseTarget (b : Board) (prefer : List (Nat × Nat)) (seg : Segment) :
    Option (Nat × Nat) :=
  match prefer.find? (fun pc =>
      seg.cells.contains pc && (kindAt b pc == some Kind.normal)) with
  | some pc => some pc
  | none =>
    match prefer.find? (fun pc => seg.cells.contains pc) with
    | some pc => some pc
    | none =>
      match (List.range seg.cells.length).findSome? (fun i =>
          match seg.cells[(seg.cells.length / 2 + i) % seg.cells.length]? with
          | some c => if kindAt b c = some Kind.normal then some c else none
          | none => none) with
      | some c => some c
      | none =>
        match seg.cells[seg.cells.length / 2]? with
        | some c => some c
        | none => seg.cells[0]?

/-- The full `computeSpecialCreations` loop body for one segment: segments
shorter than 4 produce nothing; length 5 and up qualifies for a Bomb, length 4
for a Rocket; the record sits at the chosen target cell and carries the
segment's color. -/
def runCreation (b : Board) (prefer : List (Nat × Nat)) (seg : Segment) :
    Option ((Nat × Nat) × Creation) :=
  if seg.cells.length < 4 then none
  else
    match chooseTarget b prefer seg with
    | none => none
    | some t =>
        some (t, ⟨t.1, t.2,
          if 5 ≤ seg.cells.length then Kind.bomb else Kind.rocket, seg.color⟩)

/-- The preferred-cell list of a pass: the swap's second (target) cell before
the first (origin) cell, as in the source
`[preferredSwapCells[1], preferredSwapCells[0]]`. -/
def preferOf (preferredSwapCells : Option ((Nat × Nat) × (Nat × Nat))) :
    List (Nat × Nat) :=
  match preferredSwapCells with
  | some pq => [pq.2, pq.1]
  | none => []

/-- Folding one segment into the creation map: on a key collision the
existing entry is kept unless it is a Rocket being superseded by a Bomb. -/
def creationStep (b : Board) (prefer : List (Nat × Nat)) (out : CreationMap)
    (seg : Segment) : CreationMap :=
  match runCreation b prefer seg with
  | none => out
  | some (k, v) =>
      match out.lookup k with
      | none => mset out k v
      | some existing =>
          if existing.kind = Kind.rocket ∧ v.kind = Kind.bomb then
            mset out k v
          else out

/-- Source `computeSpecialCreations(segments, preferredSwapCells)`. -/
def computeSpecialCreations (b : Board) (segments : List Segment)
    (preferredSwapCells : Option ((Nat × Nat) × (Nat × Nat))) : CreationMap :=
  segments.foldl (creationStep b (preferOf preferredSwapCells)) []

/-! ## Chain expansion (`expandWithSpecialExplosions`) -/

/-- The cells one clear-set member `k` contributes in a sweep of the expansion
loop: nothing if `k` is protected, out of bounds, empty, or holds a Normal
piece; otherwise the in-bounds, unprotected cells of the piece's blast area. -/
def specialAreaAdds (b : Board) (prot : Finset (Nat × Nat)) (k : Nat × Nat) :
    Finset (Nat × Nat) :=
  if k ∈ prot then ∅
  else if ¬ (k.1 < 8 ∧ k.2 < 8) then ∅
  else
    match b k.2 k.1 with
    | none => ∅
    | some p =>
        if p.kind = Kind.normal then ∅
        else
          let area :=
            if p.kind = Kind.rocket then rocketArea ((k.1 : Int), (k.2 : Int))
            else bombArea ((k.1 : Int), (k.2 : Int))
          ((area.filterMap cellKeyOf).filter (fun kk => kk ∉ prot)).toFinset

/-- One full sweep of the expansion loop over a snapshot of the clear set. -/
def sweep (b : Board) (prot : Finset (Nat × Nat)) (s : Finset (Nat × Nat)) :
    Finset (Nat × Nat) :=
  s ∪ s.biUnion (specialAreaAdds b prot)

/-- The `while (changed)` loop of `expandWithSpecialExplosions`, fueled: stop
as soon as a sweep adds nothing. -/
def expandLoop (b : Board) (prot : Finset (Nat × Nat)) :
    Nat → Finset (Nat × Nat) → Finset (Nat × Nat)
  | 0, s => s
  | fuel + 1, s =>
      let s' := sweep b prot s
      if s' = s then s else expandLoop b prot fuel s'

/-- Source `expandWithSpecialExplosions(clearKeys, protectedKeys)`.  Every
sweep that does not reach a fixed point adds at least one of the 64 in-bounds
cells, so 65 sweeps always suffice (proved below). -/
def expandWithSpecialExplosions (b : Board) (prot : Finset (Nat × Nat))
    (s : Finset (Nat × Nat)) : Finset (Nat × Nat) :=
  expandLoop b prot 65 s

/-! ## Collapse and refill (`collapseAndFillAnimated`) -/

/-- All nondeterminism of the engine, externalized: `freshId`/`freshColor`
model the global id counter and `randInt(COLORS.length)` for the refill pieces
(indexed by cascade pass, column, and row), and `creationId` models the id
counter for newly materialized special pieces. -/
structure Oracle where
  freshId : Nat → Nat → Nat → Nat
  freshColor : Nat → Nat → Nat → Nat
  creationId : Nat → Nat → Nat → Nat

/-- The refill piece for pass `pass`, column `x`, row `y`: the source's
`makePiece(randInt(COLORS.length), PIECE_KIND.NORMAL)`. -/
def freshPiece (o : Oracle) (pass x y : Nat) : Piece :=
  ⟨o.freshId pass x y, o.freshColor pass x y % 6, Kind.normal⟩

/-- The surviving pieces of column `x`, scanned bottom-up (`y = 7 .. 0`) as in
the source collapse loop. -/
def colPieces (b : Board) (x : Nat) : List Piece :=
  ((List.range 8).reverse).filterMap (fun y => b y x)

/-- Source `collapseAndFillAnimated()`: per column, compact the surviving
pieces to the bottom preserving their order, and fill the vacated cells above
with fresh random pieces.  The source writes the `i`-th surviving piece
(bottom-up) to row `7 - i`; hence row `y` receives survivor `7 - y` when that
exists and a fresh piece otherwise. -/
def collapseAndFillAnimated (fr : Nat → Nat → Piece) (b : Board) : Board :=
  fun y x =>
    if x < 8 ∧ y < 8 then
      match (colPieces b x)[7 - y]? with
      | some p => some p
      | none => some (fr x y)
    else none

/-! ## Destroying cells (`destroyCells`) -/

/-- The deduplicated in-bounds keys of a cell list, in first-occurrence order
(the source collects them in a `Set`). -/
def destroyKeys (cells : List (Int × Int)) : List (Nat × Nat) :=
  ((cells.filter (fun c => isInBounds c.1 c.2)).map
    (fun c => (c.1.toNat, c.2.toNat))).dedup

/-- Source `destroyCells(cells)`: null out every distinct in-bounds cell of the
list that holds a piece, and return the new board with the number of pieces
destroyed. -/
def destroyCells (b : Board) (cells : List (Int × Int)) : Board × Nat :=
  (destroyKeys cells).foldl (fun acc k =>
    if k.1 < 8 ∧ k.2 < 8 then
      match acc.1 k.2 k.1 with
      | some _ => (fun y x => if y = k.2 ∧ x = k.1 then none else acc.1 y x, acc.2 + 1)
      | none => acc
    else acc) (b, 0)

/-! ## The cascade-resolution loop (`resolveMatchesAnimated`) -/

/-- The initial clear set of a pass: every cell of every detected run, minus
the protected (special-creation target) cells. -/
def initialClearKeys (segments : List Segment) (prot : Finset (Nat × Nat)) :
    Finset (Nat × Nat) :=
  (segments.flatMap Segment.cells).toFinset.filter (fun k => k ∉ prot)

/-- The `willClear` list of a pass, as a set: the in-bounds occupied cells of
the expanded clear set (the source also records id and color per entry, used
only by the animation layer). -/
def willClearOf (b : Board) (clearKeys : Finset (Nat × Nat)) :
    Finset (Nat × Nat) :=
  clearKeys.filter (fun k => k.1 < 8 ∧ k.2 < 8 ∧ (b k.2 k.1).isSome)

/-- Committing the clear: every `willClear` cell becomes empty. -/
def clearBoard (b : Board) (wc : Finset (Nat × Nat)) : Board :=
  fun y x => if (x, y) ∈ wc then none else b y x

/-- Materializing the creation records: each in-bounds target cell receives a
fresh special piece of the recorded kind and color (`makePiece(cr.color,
cr.kind)` in the source; the id comes from the oracle). -/
def applyCreations (o : Oracle) (pass : Nat) (m : CreationMap) (b : Board) :
    Board :=
  m.foldl (fun bb kv =>
    if kv.2.x < 8 ∧ kv.2.y < 8 then
      fun y x =>
        if y = kv.2.y ∧ x = kv.2.x then
          some ⟨o.creationId pass kv.2.x kv.2.y, kv.2.color, kv.2.kind⟩
        else bb y x
    else bb) b

/-- The protected-cell set of a pass: the keys of the creation map. -/
def protOf (m : CreationMap) : Finset (Nat × Nat) :=
  (m.map Prod.fst).toFinset

/-- The creation map of a pass of the resolution loop. -/
def passCreations (b : Board) (pref : Option ((Nat × Nat) × (Nat × Nat))) :
    CreationMap :=
  computeSpecialCreations b (findMatchSegments b) pref

/-- The expanded clear set of a pass of the resolution loop. -/
def passClearKeys (b : Board) (pref : Option ((Nat × Nat) × (Nat × Nat))) :
    Finset (Nat × Nat) :=
  let prot := protOf (passCreations b pref)
  expandWithSpecialExplosions b prot (initialClearKeys (findMatchSegments b) prot)

/-- The `willClear` set of a pass of the resolution loop. -/
def passWillClear (b : Board) (pref : Option ((Nat × Nat) × (Nat × Nat))) :
    Finset (Nat × Nat) :=
  willClearOf b (passClearKeys b pref)

/-- One pass of the `while (true)` body of `resolveMatchesAnimated`: `none`
when the loop breaks (no runs, or an empty `willClear`), otherwise the board
after clear, creations and collapse, with the pass's score delta
(`willClear.length`; the set is deduplicated by construction here). -/
def resolveStep (o : Oracle) (pass : Nat) (b : Board)
    (pref : Option ((Nat × Nat) × (Nat × Nat))) : Option (Board × Nat) :=
  if findMatchSegments b = [] then none
  else
    let creations := passCreations b pref
    let wc := passWillClear b pref
    if wc = ∅ then none
    else
      let b1 := clearBoard b wc
      let b2 := applyCreations o pass creations b1
      let b3 := collapseAndFillAnimated (freshPiece o pass) b2
      some (b3, wc.card)

/-- Source `resolveMatchesAnimated(preferredSwapCells)`, fueled: iterate passes
until one breaks, clearing the preferred cells after the first pass; returns
the final board and the total score added, or `none` when the fuel runs out
(the source loop is unbounded). -/
def resolveLoop (o : Oracle) :
    Nat → Nat → Board → Option ((Nat × Nat) × (Nat × Nat)) →
    Option (Board × Nat)
  | 0, _, _, _ => none
  | fuel + 1, pass, b, pref =>
      match resolveStep o pass b pref with
      | none => some (b, 0)
      | some (b', d) =>
          (resolveLoop o fuel (pass + 1) b' none).map (fun r => (r.1, d + r.2))

/-! ## Swap validation (`attemptSwap`) -/

/-- The caller-visible outcome of a swap attempt. -/
inductive SwapOutcome where
  | rejected
  | noMatch
  | matched
deriving DecidableEq

/-- Source `attemptSwap(origin, target)`: reject when busy, out of bounds, not
at Manhattan distance 1, or a cell is empty; otherwise swap provisionally,
detect runs, and either revert (no run: `NoMatch`, board restored, no score) or
hand off to the resolution loop with the swapped cells preferred.  Returns the
final board, the score delta, and the outcome; `none` when the resolution loop
ran out of fuel. -/
def attemptSwap (o : Oracle) (fuel : Nat) (busy : Bool) (b : Board)
    (origin target : Nat × Nat) : Option (Board × Nat × SwapOutcome) :=
  if busy then some (b, 0, SwapOutcome.rejected)
  else if ¬ (origin.1 < 8 ∧ origin.2 < 8 ∧ target.1 < 8 ∧ target.2 < 8) then
    some (b, 0, SwapOutcome.rejected)
  else if manhattan origin target ≠ 1 then some (b, 0, SwapOutcome.rejected)
  else
    match b origin.2 origin.1, b target.2 target.1 with
    | some _, some _ =>
        let b1 := swapCells b origin target
        if findMatchSegments b1 = [] then
          some (swapCells b1 origin target, 0, SwapOutcome.noMatch)
        else
          (resolveLoop o fuel 0 b1 (some (origin, target))).map
            (fun r => (r.1, r.2, SwapOutcome.matched))
    | _, _ => some (b, 0, SwapOutcome.rejected)

/-! ## Special-piece activation (`detonateSpecial`) -/

/-- The blast-area cell list of an activation, duplicates included: the area of
the activated piece (centered on the drag target for a relocated Rocket,
otherwise on its own cell) with the activated piece's own cell appended (the
source comment: always remove the activated power-up itself as well). -/
def detonateArea (b : Board) (origin : Nat × Nat) (target : Option (Nat × Nat)) :
    List (Int × Int) :=
  match b origin.2 origin.1 with
  | none => []
  | some p =>
      if p.kind = Kind.normal then []
      else
        let center : Int × Int :=
          match target with
          | some t => if p.kind = Kind.rocket then ((t.1 : Int), (t.2 : Int))
                      else ((origin.1 : Int), (origin.2 : Int))
          | none => ((origin.1 : Int), (origin.2 : Int))
        (if p.kind = Kind.rocket then rocketArea center else bombArea center) ++
          [((origin.1 : Int), (origin.2 : Int))]

/-- The `willClear` list of an activation: one entry per area list element that
is in bounds and occupied.  Unlike the resolution loop, this list is built
directly from the area list and keeps duplicate coordinates. -/
def detonateWillClear (b : Board) (origin : Nat × Nat)
    (target : Option (Nat × Nat)) : List (Nat × Nat) :=
  (detonateArea b origin target).filterMap (fun c =>
    match cellKeyOf c with
    | some k => if (b k.2 k.1).isSome then some k else none
    | none => none)

/-- The score delta of an activation: the length of the (duplicate-keeping)
`willClear` list. -/
def detonateDelta (b : Board) (origin : Nat × Nat)
    (target : Option (Nat × Nat)) : Nat :=
  (detonateWillClear b origin target).length

/-- The board right after an activation's clear commit. -/
def detonateClearBoard (b : Board) (origin : Nat × Nat)
    (target : Option (Nat × Nat)) : Board :=
  fun y x => if (x, y) ∈ detonateWillClear b origin target then none else b y x

/-- Source `detonateSpecial()`: a no-op when busy, the origin cell is empty, or
it holds a Normal piece; otherwise clear the blast area (scoring one point per
`willClear` entry, duplicates included), collapse and refill, and run the
resolution loop on the result.  Returns the final board and total score delta,
or `none` when the loop ran out of fuel. -/
def detonateSpecial (o : Oracle) (fuel : Nat) (busy : Bool) (b : Board)
    (origin : Nat × Nat) (target : Option (Nat × Nat)) : Option (Board × Nat) :=
  if busy then some (b, 0)
  else
    match b origin.2 origin.1 with
    | none => some (b, 0)
    | some p =>
        if p.kind = Kind.normal then some (b, 0)
        else
          let delta := detonateDelta b origin target
          let b1 := detonateClearBoard b origin target
          let b2 := collapseAndFillAnimated (freshPiece o 0) b1
          (resolveLoop o fuel 1 b2 none).map (fun r => (r.1, delta + r.2))

/-! ## Board construction (`makeBoard`) -/

/-- The forbidden colors for a new cell, from the `makeBoard` loop body: the
color of the two cells to the left when they agree, and the color of the two
cells above when they agree. -/
def forbidFor (rowSoFar : List Piece) (rows : List (List Piece)) (y x : Nat) :
    List Nat :=
  (if 2 ≤ x then
    match rowSoFar[x - 1]?, rowSoFar[x - 2]? with
    | some p1, some p2 => if p1.color = p2.color then [p1.color] else []
    | _, _ => []
   else []) ++
  (if 2 ≤ y then
    match (rows[y - 1]?).bind (fun r => r[x]?),
          (rows[y - 2]?).bind (fun r => r[x]?) with
    | some p1, some p2 => if p1.color = p2.color then [p1.color] else []
    | _, _ => []
   else [])

/-- The retry loop of `makeBoard`: up to 12 fresh random colors while the
current one is forbidden (`r t` models the `t`-th `randInt` call for this
cell). -/
def pickColorRetry (forbid : List Nat) (r : Nat → Nat) :
    Nat → Nat → Nat → Nat
  | 0, _, c => c
  | fuel + 1, t, c =>
      if c ∈ forbid then pickColorRetry forbid r fuel (t + 1) (r t % 6) else c

/-- The deterministic fallback of `makeBoard`: the first color in `0 .. 5` not
forbidden, keeping the current color when every color is forbidden. -/
def firstAllowed (forbid : List Nat) (c : Nat) : Nat :=
  ((List.range 6).find? (fun k => decide (k ∉ forbid))).getD c

/-- The color choice of one `makeBoard` cell: a random color, retried up to 12
times while forbidden, then the deterministic fallback. -/
def pickColor (forbid : List Nat) (r : Nat → Nat) : Nat :=
  if forbid.isEmpty then r 0 % 6
  else
    let c := pickColorRetry forbid r 12 1 (r 0 % 6)
    if c ∈ forbid then firstAllowed forbid c else c

/-- Building one `makeBoard` row, cell by cell; `n` counts the remaining
cells.  The random oracle is indexed by row, column and call number. -/
def makeRow (rand : Nat → Nat → Nat → Nat) (rows : List (List Piece)) (y : Nat) :
    Nat → List Piece → List Piece
  | 0, acc => acc
  | n + 1, acc =>
      let x := acc.length
      let color := pickColor (forbidFor acc rows y x) (rand y x)
      makeRow rand rows y n (acc ++ [⟨y * 8 + x + 1, color, Kind.normal⟩])

/-- Building the `makeBoard` rows, top to bottom. -/
def makeBoardRows (rand : Nat → Nat → Nat → Nat) :
    Nat → List (List Piece) → List (List Piece)
  | 0, acc => acc
  | n + 1, acc => makeBoardRows rand n (acc ++ [makeRow rand acc acc.length 8 []])

/-- Source `makeBoard()`: an 8x8 board of fresh Normal pieces whose colors
avoid creating an immediate 3-in-a-row; the piece ids here reflect the
monotonic counter (they play no role in any verified property). -/
def makeBoard (rand : Nat → Nat → Nat → Nat) : Board :=
  fun y x => ((makeBoardRows rand 8 [])[y]?).bind (fun row => row[x]?)

/-! ## Reachable resting states -/

/-- A board is full when every in-bounds cell holds a piece. -/
def boardFull (b : Board) : Prop :=
  ∀ y : Fin 8, ∀ x : Fin 8, (b y.val x.val).isSome

instance (b : Board) : Decidable (boardFull b) := by
  unfold boardFull; infer_instance

/-- The resting states the engine can reach: a fresh board, or the committed
result of a completed swap attempt or special-piece activation (the busy flag
is back to false and the resolution loop, when it ran, has returned). -/
inductive RestingReachable : Board → Prop
  | init (rand : Nat → Nat → Nat → Nat) : RestingReachable (makeBoard rand)
  | swap (o : Oracle) (fuel : Nat) (busy : Bool) (b : Board)
      (origin target : Nat × Nat) (b' : Board) (s : Nat) (out : SwapOutcome) :
      RestingReachable b →
      attemptSwap o fuel busy b origin target = some (b', s, out) →
      RestingReachable b'
  | detonate (o : Oracle) (fuel : Nat) (busy : Bool) (b : Board)
      (origin : Nat × Nat) (target : Option (Nat × Nat)) (b' : Board) (s : Nat) :
      RestingReachable b →
      detonateSpecial o fuel busy b origin target = some (b', s) →
      RestingReachable b'

/-! ## Concrete boards used by witnesses and counterexamples -/

/-- The `noRunBoard` pattern with a Rocket at cell `(3, 3)`. -/
def rocketAt33Board : Board := fun y x =>
  if x < 8 ∧ y < 8 then
    if x = 3 ∧ y = 3 then some ⟨99, (x + 2 * y) % 4, Kind.rocket⟩
    else some ⟨y * 8 + x + 1, (x + 2 * y) % 4, Kind.normal⟩
  else none

/-- A full 8x8 board with color pattern `(x + 2*y) % 4`, which has no run in
either direction (consecutive cells always differ). -/
def noRunBoard : Board := fun y x =>
  if x < 8 ∧ y < 8 then some ⟨y * 8 + x + 1, (x + 2 * y) % 4, Kind.normal⟩ else none

/-- A full 8x8 board whose pieces all share color 0. -/
def monoBoard : Board := fun y x =>
  if y < 8 ∧ x < 8 then some ⟨y * 8 + x + 1, 0, Kind.normal⟩ else none

/-- A board holding only a single horizontal 3-run at the top-left. -/
def smallRunBoard : Board := fun y x =>
  if y = 0 ∧ x < 3 then some ⟨x + 1, 0, Kind.normal⟩ else none

/-- The `noRunBoard` pattern with a Bomb at cell `(3, 3)`. -/
def bombAt33Board : Board := fun y x =>
  if x < 8 ∧ y < 8 then
    if x = 3 ∧ y = 3 then some ⟨99, (x + 2 * y) % 4, Kind.bomb⟩
    else some ⟨y * 8 + x + 1, (x + 2 * y) % 4, Kind.normal⟩
  else none

/-- An oracle whose refill colors and ids are all zero. -/
def zeroOracle : Oracle := ⟨fun _ _ _ => 0, fun _ _ _ => 0, fun _ _ _ => 0⟩

/-! ## Lemmas about `destroyCells` (claim C10) -/

theorem destroyKeys_nodup (cells : List (Int × Int)) : (destroyKeys cells).Nodup :=
  List.nodup_dedup _

theorem destroyKeys_bounds (cells : List (Int × Int)) :
    ∀ k ∈ destroyKeys cells, k.1 < 8 ∧ k.2 < 8 := by
  intro k hk
  unfold destroyKeys at hk
  rw [List.mem_dedup, List.mem_map] at hk
  obtain ⟨c, hc, rfl⟩ := hk
  rw [List.mem_filter] at hc
  have hb := hc.2
  unfold isInBounds at hb
  simp only [Bool.and_eq_true, decide_eq_true_eq] at hb
  omega

/-- Characterization of the `destroyCells` fold over any nodup list of
in-bounds keys, from any starting accumulator. -/
theorem destroyFold_spec (l : List (Nat × Nat)) (hnd : l.Nodup)
    (hb8 : ∀ k ∈ l, k.1 < 8 ∧ k.2 < 8) (B : Board) (n : Nat) :
    (l.foldl (fun acc k =>
      if k.1 < 8 ∧ k.2 < 8 then
        match acc.1 k.2 k.1 with
        | some _ => (fun y x => if y = k.2 ∧ x = k.1 then none else acc.1 y x, acc.2 + 1)
        | none => acc
      else acc) (B, n)).2
      = n + (l.filter (fun k => (B k.2 k.1).isSome)).length
    ∧ ∀ y x, (l.foldl (fun acc k =>
      if k.1 < 8 ∧ k.2 < 8 then
        match acc.1 k.2 k.1 with
        | some _ => (fun y x => if y = k.2 ∧ x = k.1 then none else acc.1 y x, acc.2 + 1)
        | none => acc
      else acc) (B, n)).1 y x = if (x, y) ∈ l then none else B y x := by
  induction l generalizing B n with
  | nil => simp
  | cons k rest ih =>
    have hk8 : k.1 < 8 ∧ k.2 < 8 := hb8 k (List.mem_cons_self _ _)
    have hnotmem : k ∉ rest := (List.nodup_cons.mp hnd).1
    have hnd' : rest.Nodup := (List.nodup_cons.mp hnd).2
    have hb8' : ∀ q ∈ rest, q.1 < 8 ∧ q.2 < 8 :=
      fun q hq => hb8 q (List.mem_cons_of_mem _ hq)
    simp only [List.foldl_cons, if_pos hk8]
    cases hocc : B k.2 k.1 with
    | none =>
      -- cell already empty: accumulator unchanged
      obtain ⟨ih1, ih2⟩ := ih hnd' hb8' B n
      constructor
      · rw [ih1, List.filter_cons]
        simp [hocc]
      · intro y x
        rw [ih2]
        by_cases hmem : (x, y) ∈ rest
        · simp [hmem]
        · rcases eq_or_ne (x, y) k with hxy | hxy
          · simp [hmem, hxy.symm ▸ hocc, hxy]
          · simp [hmem, hxy]
    | some p =>
      -- cell occupied: it is nulled and counted
      obtain ⟨ih1, ih2⟩ :=
        ih hnd' hb8' (fun y x => if y = k.2 ∧ x = k.1 then none else B y x) (n + 1)
      constructor
      · rw [ih1, List.filter_cons]
        have : (rest.filter (fun q =>
            ((fun y x => if y = k.2 ∧ x = k.1 then none else B y x) : Board) q.2 q.1 |>.isSome))
            = rest.filter (fun q => (B q.2 q.1).isSome) := by
          apply List.filter_congr
          intro q hq
          have : ¬ (q.2 = k.2 ∧ q.1 = k.1) := by
            intro hqk
            exact hnotmem (by
              have : q = k := Prod.ext hqk.2 hqk.1
              rwa [this] at hq)
          simp [this]
        rw [this]
        simp [hocc]
        omega
      · intro y x
        rw [ih2]
        by_cases hmem : (x, y) ∈ rest
        · simp [hmem]
        · rcases eq_or_ne (x, y) k with hxy | hxy
          · have : y = k.2 ∧ x = k.1 := by
              constructor
              · exact congrArg Prod.snd hxy
              · exact congrArg Prod.fst hxy
            simp [hmem, hxy, this]
          · have : ¬ (y = k.2 ∧ x = k.1) := by
              intro h
              exact hxy (Prod.ext h.2 h.1)
            simp [hmem, hxy, this]

/-- Every cell of `destroyCells` output: a deduplicated in-bounds input cell is
emptied, everything else keeps its content (out-of-bounds input coordinates are
ignored). -/
theorem destroyCells_board (b : Board) (cells : List (Int × Int)) :
    ∀ y x, (destroyCells b cells).1 y x =
      if (x, y) ∈ destroyKeys cells then none else b y x := by
  have := destroyFold_spec (destroyKeys cells) (destroyKeys_nodup cells)
    (destroyKeys_bounds cells) b 0
  exact this.2

/-- The count returned by `destroyCells`: one per distinct in-bounds occupied
input cell. -/
theorem destroyCells_count (b : Board) (cells : List (Int × Int)) :
    (destroyCells b cells).2 =
      ((destroyKeys cells).filter (fun k => (b k.2 k.1).isSome)).length := by
  have := destroyFold_spec (destroyKeys cells) (destroyKeys_nodup cells)
    (destroyKeys_bounds cells) b 0
  simpa using this.1

/-- C10: for every input list of cell coordinates, `destroyCells` destroys and
counts each distinct in-bounds cell at most once (duplicates in the list are
collapsed by the key set), out-of-bounds coordinates are ignored, already-empty
cells are not counted, and the returned count equals exactly the number of
cells changed from occupied to empty. -/
theorem C10_destroyCells_correct (b : Board) (cells : List (Int × Int)) :
    (destroyCells b cells).2 =
      ((Finset.range 8 ×ˢ Finset.range 8).filter (fun c =>
        (b c.2 c.1).isSome ∧ (destroyCells b cells).1 c.2 c.1 = none)).card ∧
    (∀ y x, (destroyCells b cells).1 y x =
      if (x, y) ∈ destroyKeys cells then none else b y x) := by
  refine ⟨?_, destroyCells_board b cells⟩
  have hset : (Finset.range 8 ×ˢ Finset.range 8).filter (fun c =>
        (b c.2 c.1).isSome ∧ (destroyCells b cells).1 c.2 c.1 = none)
      = ((destroyKeys cells).filter (fun k => (b k.2 k.1).isSome)).toFinset := by
    ext c
    simp only [Finset.mem_filter, Finset.mem_product, Finset.mem_range,
      List.mem_toFinset, List.mem_filter]
    constructor
    · rintro ⟨⟨h1, h2⟩, hocc, hnone⟩
      rw [destroyCells_board b cells c.2 c.1] at hnone
      refine ⟨?_, hocc⟩
      by_cases hmem : (c.1, c.2) ∈ destroyKeys cells
      · simpa using hmem
      · rw [if_neg hmem] at hnone
        rw [hnone] at hocc
        simp at hocc
    · rintro ⟨hmem, hocc⟩
      have hmem' : (c.1, c.2) ∈ destroyKeys cells := by simpa using hmem
      have hb := destroyKeys_bounds cells (c.1, c.2) hmem'
      refine ⟨⟨hb.1, hb.2⟩, hocc, ?_⟩
      rw [destroyCells_board b cells c.2 c.1, if_pos hmem']
  rw [hset, List.toFinset_card_of_nodup ((destroyKeys_nodup cells).filter _),
    destroyCells_count]

/-! ## Lemmas about the chain expander (claim C9) -/

/-- The 64 in-bounds cells. -/
def inBoundsCells : Finset (Nat × Nat) := Finset.range 8 ×ˢ Finset.range 8

theorem subset_sweep (b : Board) (prot s : Finset (Nat × Nat)) :
    s ⊆ sweep b prot s :=
  Finset.subset_union_left

theorem specialAreaAdds_inBounds (b : Board) (prot : Finset (Nat × Nat))
    (k : Nat × Nat) : specialAreaAdds b prot k ⊆ inBoundsCells := by
  intro a ha
  unfold specialAreaAdds at ha
  split at ha
  · simp at ha
  · split at ha
    · simp at ha
    · split at ha
      · simp at ha
      · split at ha
        · simp at ha
        · rw [List.mem_toFinset, List.mem_filter, List.mem_filterMap] at ha
          obtain ⟨c, -, hc⟩ := ha.1
          unfold cellKeyOf at hc
          split at hc
          · rename_i hib
            unfold isInBounds at hib
            simp only [Bool.and_eq_true, decide_eq_true_eq] at hib
            cases hc
            unfold inBoundsCells
            rw [Finset.mem_product, Finset.mem_range, Finset.mem_range]
            omega
          · cases hc

theorem sweep_subset_union (b : Board) (prot s : Finset (Nat × Nat)) :
    sweep b prot s ⊆ s ∪ inBoundsCells := by
  intro a ha
  unfold sweep at ha
  rw [Finset.mem_union] at ha ⊢
  rcases ha with ha | ha
  · exact Or.inl ha
  · rw [Finset.mem_biUnion] at ha
    obtain ⟨k, _, hk⟩ := ha
    exact Or.inr (specialAreaAdds_inBounds b prot k hk)

theorem expandLoop_of_fix (b : Board) (prot : Finset (Nat × Nat)) (fuel : Nat)
    (s : Finset (Nat × Nat)) (h : sweep b prot s = s) :
    expandLoop b prot fuel s = s := by
  cases fuel with
  | zero => rfl
  | succ fuel => simp [expandLoop, h]

/-- Enough fuel always reaches a fixed point of the sweep: every non-final
sweep adds at least one of the 64 in-bounds cells. -/
theorem expandLoop_reaches_fix (b : Board) (prot : Finset (Nat × Nat)) :
    ∀ fuel s, 64 - (s ∩ inBoundsCells).card < fuel →
    sweep b prot (expandLoop b prot fuel s) = expandLoop b prot fuel s := by
  intro fuel
  induction fuel with
  | zero => intro s h; omega
  | succ fuel ih =>
    intro s h
    by_cases hfix : sweep b prot s = s
    · simp [expandLoop, hfix]
    · simp only [expandLoop, if_neg hfix]
      apply ih
      have hsub : s ⊆ sweep b prot s := subset_sweep b prot s
      have hstrict : ∃ a ∈ sweep b prot s, a ∉ s := by
        by_contra hno
        push_neg at hno
        exact hfix (Finset.Subset.antisymm (fun a ha => hno a ha) hsub)
      obtain ⟨a, haSweep, haNot⟩ := hstrict
      have haIB : a ∈ inBoundsCells := by
        have := sweep_subset_union b prot s haSweep
        rw [Finset.mem_union] at this
        rcases this with h' | h'
        · exact absurd h' haNot
        · exact h'
      have hlt : (s ∩ inBoundsCells).card < (sweep b prot s ∩ inBoundsCells).card := by
        apply Finset.card_lt_card
        constructor
        · exact Finset.inter_subset_inter hsub (Finset.Subset.refl _)
        · intro hcontra
          have : a ∈ s ∩ inBoundsCells :=
            hcontra (Finset.mem_inter.mpr ⟨haSweep, haIB⟩)
          exact haNot (Finset.mem_inter.mp this).1
      have hle : (sweep b prot s ∩ inBoundsCells).card ≤ 64 := by
        have : (sweep b prot s ∩ inBoundsCells).card ≤ inBoundsCells.card :=
          Finset.card_le_card Finset.inter_subset_right
        have hib : inBoundsCells.card = 64 := by decide
        omega
      omega

theorem expand_is_fix (b : Board) (prot s : Finset (Nat × Nat)) :
    sweep b prot (expandWithSpecialExplosions b prot s)
      = expandWithSpecialExplosions b prot s := by
  apply expandLoop_reaches_fix
  have : (s ∩ inBoundsCells).card ≤ 64 := by
    have : (s ∩ inBoundsCells).card ≤ inBoundsCells.card :=
      Finset.card_le_card Finset.inter_subset_right
    have hib : inBoundsCells.card = 64 := by decide
    omega
  omega

theorem subset_expandLoop (b : Board) (prot : Finset (Nat × Nat)) :
    ∀ fuel s, s ⊆ expandLoop b prot fuel s := by
  intro fuel
  induction fuel with
  | zero => intro s; exact Finset.Subset.refl s
  | succ fuel ih =>
    intro s
    by_cases hfix : sweep b prot s = s
    · simp [expandLoop, hfix]
    · simp only [expandLoop, if_neg hfix]
      exact (subset_sweep b prot s).trans (ih _)

theorem subset_expand (b : Board) (prot s : Finset (Nat × Nat)) :
    s ⊆ expandWithSpecialExplosions b prot s :=
  subset_expandLoop b prot 65 s

theorem sweep_protected (b : Board) (prot s : Finset (Nat × Nat)) :
    ∀ k ∈ sweep b prot s, k ∈ prot → k ∈ s := by
  intro k hk hprot
  unfold sweep at hk
  rw [Finset.mem_union] at hk
  rcases hk with hk | hk
  · exact hk
  · exfalso
    rw [Finset.mem_biUnion] at hk
    obtain ⟨q, _, hq⟩ := hk
    unfold specialAreaAdds at hq
    split at hq
    · simp at hq
    · split at hq
      · simp at hq
      · split at hq
        · simp at hq
        · split at hq
          · simp at hq
          · rw [List.mem_toFinset, List.mem_filter] at hq
            exact (by simpa using hq.2 : k ∉ prot) hprot

theorem expandLoop_protected (b : Board) (prot : Finset (Nat × Nat)) :
    ∀ fuel s, ∀ k ∈ expandLoop b prot fuel s, k ∈ prot → k ∈ s := by
  intro fuel
  induction fuel with
  | zero => intro s k hk _; exact hk
  | succ fuel ih =>
    intro s k hk hprot
    by_cases hfix : sweep b prot s = s
    · rw [expandLoop_of_fix b prot _ s hfix] at hk
      exact hk
    · simp only [expandLoop, if_neg hfix] at hk
      exact sweep_protected b prot s k (ih _ k hk hprot) hprot

/-- C9: the expanded Clear Set is a fixed point of the Chain Expander
(re-running it on its own output adds nothing), a protected cell is never
added during expansion (it is in the output only when it was in the input),
and a clear set whose special-piece cells are all protected expands to
itself (protected cells are never treated as exploding). -/
theorem C9_expand_fixpoint_and_protected (b : Board) (prot s : Finset (Nat × Nat)) :
    expandWithSpecialExplosions b prot (expandWithSpecialExplosions b prot s)
      = expandWithSpecialExplosions b prot s
    ∧ (∀ k ∈ expandWithSpecialExplosions b prot s, k ∈ prot → k ∈ s)
    ∧ ((∀ k ∈ s, (kindAt b k = some Kind.rocket ∨ kindAt b k = some Kind.bomb) →
          k ∈ prot) →
        expandWithSpecialExplosions b prot s = s) := by
  refine ⟨?_, ?_, ?_⟩
  · exact expandLoop_of_fix b prot 65 _ (expand_is_fix b prot s)
  · exact expandLoop_protected b prot 65 s
  · intro hall
    apply expandLoop_of_fix
    unfold sweep
    have : s.biUnion (specialAreaAdds b prot) = ∅ := by
      rw [Finset.eq_empty_iff_forall_not_mem]
      intro a ha
      rw [Finset.mem_biUnion] at ha
      obtain ⟨k, hk, hak⟩ := ha
      have hz : specialAreaAdds b prot k = ∅ := by
        unfold specialAreaAdds
        by_cases hp : k ∈ prot
        · simp [hp]
        · rw [if_neg hp]
          by_cases hb8 : k.1 < 8 ∧ k.2 < 8
          · rw [if_neg (by simpa using hb8)]
            cases hbk : b k.2 k.1 with
            | none => rfl
            | some p =>
              by_cases hkind : p.kind = Kind.normal
              · simp [hkind]
              · exfalso
                apply hp
                apply hall k hk
                have hka : kindAt b k = some p.kind := by
                  unfold kindAt
                  rw [hbk]
                  rfl
                cases hpk : p.kind with
                | normal => exact absurd hpk hkind
                | rocket => exact Or.inl (by rw [hka, hpk])
                | bomb => exact Or.inr (by rw [hka, hpk])
          · simp [hb8]
      rw [hz] at hak
      exact absurd hak (Finset.not_mem_empty a)
    rw [this, Finset.union_empty]

/-- Witness for C9: a clear set holding only a protected Rocket cell expands
to itself. -/
theorem C9_witness :
    expandWithSpecialExplosions rocketAt33Board {(3, 3)} {(3, 3)} = {(3, 3)} :=
  (C9_expand_fixpoint_and_protected rocketAt33Board {(3, 3)} {(3, 3)}).2.2
    (by decide)

/-! ## Lemmas about special-piece detonation (claims C4 and C7) -/

/-- The `willClear` list of an activation is the occupancy filter of the
in-bounds keys of the area list. -/
theorem detonateWillClear_eq_filter (b : Board) (origin : Nat × Nat)
    (target : Option (Nat × Nat)) :
    detonateWillClear b origin target =
      ((detonateArea b origin target).filterMap cellKeyOf).filter
        (fun k => (b k.2 k.1).isSome) := by
  unfold detonateWillClear
  rw [List.filter_filterMap]
  apply List.filterMap_congr
  intro c _
  cases cellKeyOf c with
  | none => rfl
  | some k =>
    by_cases hocc : (b k.2 k.1).isSome
    · simp [Option.filter, hocc]
    · simp [Option.filter, hocc]

/-- The area list of a Bomb activation at `(3, 3)`. -/
theorem detonateArea_bomb33 (b : Board) (p : Piece) (hb : b 3 3 = some p)
    (hk : p.kind = Kind.bomb) :
    detonateArea b (3, 3) none = bombArea (3, 3) ++ [((3 : Int), (3 : Int))] := by
  unfold detonateArea
  rw [show ((3, 3) : Nat × Nat).2 = 3 from rfl, show ((3, 3) : Nat × Nat).1 = 3 from rfl, hb]
  simp [hk]

/-- The area list of an unrelocated Rocket activation at `(3, 3)`. -/
theorem detonateArea_rocket33 (b : Board) (p : Piece) (hb : b 3 3 = some p)
    (hk : p.kind = Kind.rocket) :
    detonateArea b (3, 3) none = rocketArea (3, 3) ++ [((3 : Int), (3 : Int))] := by
  unfold detonateArea
  rw [show ((3, 3) : Nat × Nat).2 = 3 from rfl, show ((3, 3) : Nat × Nat).1 = 3 from rfl, hb]
  simp [hk]

/-- The distinct cells of the Bomb blast at `(3, 3)`: the radius-2 disc
`dx^2 + dy^2 ≤ 4`. -/
def bomb33Cells : Finset (Nat × Nat) :=
  ((bombArea (3, 3)).filterMap cellKeyOf).toFinset

/-- The distinct cells of the Rocket blast at `(3, 3)`: the plus shape. -/
def rocket33Cells : Finset (Nat × Nat) :=
  ((rocketArea (3, 3)).filterMap cellKeyOf).toFinset

/-- Key facts about the `willClear` list of an activation at `(3, 3)` whose
area keys are the concrete list `ks` with the origin cell appearing in it:
the list is the occupancy filter of `ks` plus one extra origin entry. -/
theorem detonateWillClear_concrete (b : Board) (p : Piece) (hb : b 3 3 = some p)
    (ks : List (Nat × Nat))
    (harea : (detonateArea b (3, 3) none).filterMap cellKeyOf = ks ++ [(3, 3)]) :
    detonateWillClear b (3, 3) none =
      ks.filter (fun k => (b k.2 k.1).isSome) ++ [(3, 3)] := by
  rw [detonateWillClear_eq_filter, harea, List.filter_append]
  have hocc : (b 3 3).isSome = true := by rw [hb]; rfl
  congr 1
  simp only [List.filter_cons, List.filter_nil]
  simp [hocc]

/-- The count of occupied cells among a nodup key list, as a Finset filter
cardinality. -/
theorem filter_occ_length (b : Board) (ks : List (Nat × Nat)) (hnd : ks.Nodup) :
    (ks.filter (fun k => (b k.2 k.1).isSome)).length =
      (ks.toFinset.filter (fun k => (b k.2 k.1).isSome)).card := by
  rw [← List.toFinset_card_of_nodup (hnd.filter _), List.toFinset_filter]

/-- C4 counterexample: on a fully occupied board with a Bomb at `(3, 3)`, the
activation clears 13 distinct cells (the radius-2 disc has 13 lattice cells,
not 21) and the emitted score delta is 14 (the activated cell is listed
twice), not the number of occupied cells among those cleared. -/
theorem C4_counterexample :
    (detonateWillClear bombAt33Board (3, 3) none).dedup.length = 13 ∧
    ¬ (detonateWillClear bombAt33Board (3, 3) none).dedup.length = 21 ∧
    detonateDelta bombAt33Board (3, 3) none = 14 ∧
    ¬ detonateDelta bombAt33Board (3, 3) none =
        (detonateWillClear bombAt33Board (3, 3) none).dedup.length := by
  refine ⟨by decide, by decide, by decide, by decide⟩

/-- The clear commit and score delta of an activation at `(3, 3)` whose area
key list is a nodup list `ks` containing `(3, 3)`, with one extra origin key
appended: exactly the occupied `ks` cells are emptied and the delta counts the
occupied `ks` cells plus one (the appended origin entry). -/
theorem detonate33_clear_spec (b : Board) (p : Piece) (hb : b 3 3 = some p)
    (ks : List (Nat × Nat)) (hnd : ks.Nodup) (h33k : ((3 : Nat), (3 : Nat)) ∈ ks)
    (hkeys : (detonateArea b (3, 3) none).filterMap cellKeyOf = ks ++ [(3, 3)]) :
    (∀ y x, detonateClearBoard b (3, 3) none y x =
      if (x, y) ∈ ks.toFinset then none else b y x) ∧
    detonateDelta b (3, 3) none =
      (ks.toFinset.filter (fun k => (b k.2 k.1).isSome)).card + 1 := by
  have hwc := detonateWillClear_concrete b p hb ks hkeys
  have hocc : (b 3 3).isSome = true := by rw [hb]; rfl
  constructor
  · intro y x
    unfold detonateClearBoard
    rw [hwc]
    by_cases hmem : (x, y) ∈ ks.toFinset
    · rw [if_pos hmem]
      by_cases hoccxy : (b y x).isSome
      · rw [if_pos ?side]
        case side =>
          rw [List.mem_append]
          left
          rw [List.mem_filter]
          exact ⟨by rwa [← List.mem_toFinset], by simpa using hoccxy⟩
      · rw [if_neg ?side]
        · simpa using hoccxy
        case side =>
          rw [List.mem_append]
          rintro (hmf | h33)
          · rw [List.mem_filter] at hmf
            exact absurd (by simpa using hmf.2) hoccxy
          · have hxy : ((x, y) : Nat × Nat) = (3, 3) := by simpa using h33
            have hx : x = 3 := congrArg Prod.fst hxy
            have hy : y = 3 := congrArg Prod.snd hxy
            subst hx
            subst hy
            exact hoccxy hocc
    · rw [if_neg hmem, if_neg ?side]
      case side =>
        rw [List.mem_append]
        rintro (hmf | h33)
        · rw [List.mem_filter] at hmf
          exact hmem (List.mem_toFinset.mpr hmf.1)
        · have hxy : ((x, y) : Nat × Nat) = (3, 3) := by simpa using h33
          exact hmem (by rw [hxy]; exact List.mem_toFinset.mpr h33k)
  · unfold detonateDelta
    rw [hwc, List.length_append, filter_occ_length b _ hnd]
    rfl

/-- The instantiation of `detonate33_clear_spec` for a Bomb at `(3, 3)`. -/
theorem bomb33_clear_spec (b : Board) (p : Piece) (hb : b 3 3 = some p)
    (hk : p.kind = Kind.bomb) :
    (∀ y x, detonateClearBoard b (3, 3) none y x =
      if (x, y) ∈ bomb33Cells then none else b y x) ∧
    detonateDelta b (3, 3) none =
      (bomb33Cells.filter (fun k => (b k.2 k.1).isSome)).card + 1 := by
  apply detonate33_clear_spec b p hb _ (by decide) (by decide)
  rw [detonateArea_bomb33 b p hb hk, List.filterMap_append]
  rfl

/-- The instantiation of `detonate33_clear_spec` for an unrelocated Rocket at
`(3, 3)`. -/
theorem rocket33_clear_spec (b : Board) (p : Piece) (hb : b 3 3 = some p)
    (hk : p.kind = Kind.rocket) :
    (∀ y x, detonateClearBoard b (3, 3) none y x =
      if (x, y) ∈ rocket33Cells then none else b y x) ∧
    detonateDelta b (3, 3) none =
      (rocket33Cells.filter (fun k => (b k.2 k.1).isSome)).card + 1 := by
  apply detonate33_clear_spec b p hb _ (by decide) (by decide)
  rw [detonateArea_rocket33 b p hb hk, List.filterMap_append]
  rfl

/-- C4 amended: activating a Bomb at `(3, 3)` clears exactly the occupied
cells of the disc `dx^2 + dy^2 ≤ 4` around `(3, 3)` (13 cells on an
unobstructed interior, containing `(3, 3)` itself), and the score delta is the
number of occupied cells among the disc plus one (the activated piece's own
cell is counted twice). -/
theorem C4_bomb33_clears_disc (b : Board) (p : Piece) (hb : b 3 3 = some p)
    (hk : p.kind = Kind.bomb) :
    bomb33Cells.card = 13 ∧
    (3, 3) ∈ bomb33Cells ∧
    (∀ y x, detonateClearBoard b (3, 3) none y x =
      if (x, y) ∈ bomb33Cells then none else b y x) ∧
    detonateDelta b (3, 3) none =
      (bomb33Cells.filter (fun k => (b k.2 k.1).isSome)).card + 1 := by
  have h := bomb33_clear_spec b p hb hk
  exact ⟨by decide, by decide, h.1, h.2⟩

/-- Witness for C4 amended, on the concrete full board with a Bomb at
`(3, 3)`: the delta is `13 + 1`. -/
theorem C4_witness :
    detonateDelta bombAt33Board (3, 3) none =
      (bomb33Cells.filter (fun k => (bombAt33Board k.2 k.1).isSome)).card + 1 :=
  (C4_bomb33_clears_disc bombAt33Board ⟨99, 1, Kind.bomb⟩ (by decide) rfl).2.2.2

/-! ## Score-conservation lemmas (claim C7) -/

/-- The number of cells changed from occupied to empty by a board whose
update empties exactly the cells of a set `W` of in-bounds cells. -/
theorem changed_card (b : Board) (W : Finset (Nat × Nat))
    (hW : ∀ k ∈ W, k.1 < 8 ∧ k.2 < 8) (bb : Board)
    (hbb : ∀ y x, bb y x = if (x, y) ∈ W then none else b y x) :
    ((Finset.range 8 ×ˢ Finset.range 8).filter (fun c =>
      (b c.2 c.1).isSome ∧ bb c.2 c.1 = none)).card
    = (W.filter (fun k => (b k.2 k.1).isSome)).card := by
  congr 1
  ext c
  simp only [Finset.mem_filter, Finset.mem_product, Finset.mem_range]
  constructor
  · rintro ⟨⟨h1, h2⟩, hocc, hnone⟩
    rw [hbb c.2 c.1] at hnone
    refine ⟨?_, hocc⟩
    by_cases hmem : (c.1, c.2) ∈ W
    · simpa using hmem
    · rw [if_neg hmem] at hnone
      rw [hnone] at hocc
      simp at hocc
  · rintro ⟨hmem, hocc⟩
    have hb8 := hW c hmem
    refine ⟨⟨hb8.1, hb8.2⟩, hocc, ?_⟩
    rw [hbb c.2 c.1, if_pos (by simpa using hmem)]

theorem willClearOf_bounds (b : Board) (ck : Finset (Nat × Nat)) :
    ∀ k ∈ willClearOf b ck, k.1 < 8 ∧ k.2 < 8 := by
  intro k hk
  unfold willClearOf at hk
  rw [Finset.mem_filter] at hk
  exact ⟨hk.2.1, hk.2.2.1⟩

theorem willClearOf_occupied (b : Board) (ck : Finset (Nat × Nat)) :
    ∀ k ∈ willClearOf b ck, (b k.2 k.1).isSome := by
  intro k hk
  unfold willClearOf at hk
  rw [Finset.mem_filter] at hk
  exact hk.2.2.2

/-- C7 counterexample: a Bomb detonation pass on a fully occupied board emits
a score delta of 14 while it destroys only 13 pieces (the activated cell is
listed twice in the pass's clear list). -/
theorem C7_counterexample :
    detonateDelta bombAt33Board (3, 3) none = 14 ∧
    ((Finset.range 8 ×ˢ Finset.range 8).filter (fun c =>
      (bombAt33Board c.2 c.1).isSome ∧
      detonateClearBoard bombAt33Board (3, 3) none c.2 c.1 = none)).card = 13 ∧
    (14 : Nat) ≠ 13 := by
  refine ⟨by decide, by decide, by decide⟩

/-- C7 amended: in every pass of the cascade-resolution loop the emitted score
delta equals the number of pieces destroyed by that pass's clear commit (one
point per destroyed piece, blast-area victims included); in a special-piece
detonation pass (here at cell `(3, 3)`, the Rocket unrelocated) the delta
exceeds the number of destroyed pieces by exactly one, because the activated
piece's own cell is listed twice. -/
theorem C7_score_equals_destroyed (b : Board)
    (pref : Option ((Nat × Nat) × (Nat × Nat))) (p : Piece) (hb : b 3 3 = some p)
    (hk : p.kind = Kind.bomb ∨ p.kind = Kind.rocket) :
    (passWillClear b pref).card =
      ((Finset.range 8 ×ˢ Finset.range 8).filter (fun c =>
        (b c.2 c.1).isSome ∧
        clearBoard b (passWillClear b pref) c.2 c.1 = none)).card ∧
    detonateDelta b (3, 3) none =
      ((Finset.range 8 ×ˢ Finset.range 8).filter (fun c =>
        (b c.2 c.1).isSome ∧
        detonateClearBoard b (3, 3) none c.2 c.1 = none)).card + 1 := by
  constructor
  · rw [changed_card b (passWillClear b pref)
      (willClearOf_bounds b _) (clearBoard b (passWillClear b pref))
      (fun y x => rfl)]
    unfold passWillClear
    rw [Finset.filter_true_of_mem (fun k hk => willClearOf_occupied b _ k hk)]
  · rcases hk with hk | hk
    · have h := bomb33_clear_spec b p hb hk
      rw [changed_card b bomb33Cells (by decide) _ h.1, h.2]
    · have h := rocket33_clear_spec b p hb hk
      rw [changed_card b rocket33Cells (by decide) _ h.1, h.2]

/-- Witness for C7 amended, at the concrete full board with a Bomb at
`(3, 3)` and a swap-less resolver pass. -/
theorem C7_witness :
    (passWillClear bombAt33Board none).card =
      ((Finset.range 8 ×ˢ Finset.range 8).filter (fun c =>
        (bombAt33Board c.2 c.1).isSome ∧
        clearBoard bombAt33Board (passWillClear bombAt33Board none) c.2 c.1 = none)).card ∧
    detonateDelta bombAt33Board (3, 3) none =
      ((Finset.range 8 ×ˢ Finset.range 8).filter (fun c =>
        (bombAt33Board c.2 c.1).isSome ∧
        detonateClearBoard bombAt33Board (3, 3) none c.2 c.1 = none)).card + 1 :=
  C7_score_equals_destroyed bombAt33Board none ⟨99, 1, Kind.bomb⟩ (by decide)
    (Or.inl rfl)

/-! ## Special-piece creation thresholds (claim C6) -/

/-- Target selection always succeeds on a nonempty segment. -/
theorem chooseTarget_isSome (b : Board) (prefer : List (Nat × Nat))
    (seg : Segment) (hne : 0 < seg.cells.length) :
    ∃ t, chooseTarget b prefer seg = some t := by
  unfold chooseTarget
  cases prefer.find? (fun pc =>
      seg.cells.contains pc && (kindAt b pc == some Kind.normal)) with
  | some pc => exact ⟨pc, rfl⟩
  | none =>
    cases prefer.find? (fun pc => seg.cells.contains pc) with
    | some pc => exact ⟨pc, rfl⟩
    | none =>
      cases hscan : (List.range seg.cells.length).findSome? (fun i =>
          match seg.cells[(seg.cells.length / 2 + i) % seg.cells.length]? with
          | some c => if kindAt b c = some Kind.normal then some c else none
          | none => none) with
      | some c => exact ⟨c, rfl⟩
      | none =>
        have hmid : seg.cells.length / 2 < seg.cells.length := Nat.div_lt_self hne (by omega)
        cases hget : seg.cells[seg.cells.length / 2]? with
        | some c => exact ⟨c, by simp [hscan, hget]⟩
        | none =>
          rw [List.getElem?_eq_none_iff] at hget
          omega

/-- The per-run creation rule: length 3 creates nothing, length 4 one Rocket
record, length 5 or more one Bomb record, always of the segment's color at the
chosen target cell. -/
theorem runCreation_kinds (b : Board) (prefer : List (Nat × Nat)) (seg : Segment) :
    (seg.cells.length = 3 → runCreation b prefer seg = none) ∧
    (seg.cells.length = 4 → ∃ t, runCreation b prefer seg =
      some (t, ⟨t.1, t.2, Kind.rocket, seg.color⟩)) ∧
    (5 ≤ seg.cells.length → ∃ t, runCreation b prefer seg =
      some (t, ⟨t.1, t.2, Kind.bomb, seg.color⟩)) := by
  refine ⟨?_, ?_, ?_⟩
  · intro h3
    unfold runCreation
    rw [if_pos (by omega)]
  · intro h4
    obtain ⟨t, ht⟩ := chooseTarget_isSome b prefer seg (by omega)
    refine ⟨t, ?_⟩
    unfold runCreation
    rw [if_neg (by omega), ht, if_neg (by omega)]
  · intro h5
    obtain ⟨t, ht⟩ := chooseTarget_isSome b prefer seg (by omega)
    refine ⟨t, ?_⟩
    unfold runCreation
    rw [if_neg (by omega), ht, if_pos h5]

/-- C6: in a pass whose detected runs are the given segments, a run of exactly
length 4 yields exactly one Rocket creation and no Bomb creation, a run of
length 5 or more exactly one Bomb creation, and a run of length 3 no creation
at all; for a single-run pass the whole creation map is that one record. -/
theorem C6_creation_thresholds (b : Board) (seg : Segment)
    (pref : Option ((Nat × Nat) × (Nat × Nat))) :
    (seg.cells.length = 3 →
      runCreation b (preferOf pref) seg = none ∧
      computeSpecialCreations b [seg] pref = []) ∧
    (seg.cells.length = 4 → ∃ t,
      runCreation b (preferOf pref) seg =
        some (t, ⟨t.1, t.2, Kind.rocket, seg.color⟩) ∧
      computeSpecialCreations b [seg] pref =
        [(t, ⟨t.1, t.2, Kind.rocket, seg.color⟩)]) ∧
    (5 ≤ seg.cells.length → ∃ t,
      runCreation b (preferOf pref) seg =
        some (t, ⟨t.1, t.2, Kind.bomb, seg.color⟩) ∧
      computeSpecialCreations b [seg] pref =
        [(t, ⟨t.1, t.2, Kind.bomb, seg.color⟩)]) := by
  obtain ⟨hk3, hk4, hk5⟩ := runCreation_kinds b (preferOf pref) seg
  refine ⟨?_, ?_, ?_⟩
  · intro h3
    refine ⟨hk3 h3, ?_⟩
    unfold computeSpecialCreations
    simp only [List.foldl_cons, List.foldl_nil]
    unfold creationStep
    rw [hk3 h3]
  · intro h4
    obtain ⟨t, ht⟩ := hk4 h4
    refine ⟨t, ht, ?_⟩
    unfold computeSpecialCreations
    simp only [List.foldl_cons, List.foldl_nil]
    unfold creationStep
    rw [ht]
    rfl
  · intro h5
    obtain ⟨t, ht⟩ := hk5 h5
    refine ⟨t, ht, ?_⟩
    unfold computeSpecialCreations
    simp only [List.foldl_cons, List.foldl_nil]
    unfold creationStep
    rw [ht]
    rfl

/-- Witness for C6: concrete single runs of lengths 3, 4 and 5 on the board
with no special pieces. -/
theorem C6_witness :
    computeSpecialCreations noRunBoard [⟨[(0, 0), (1, 0), (2, 0)], 0, true⟩] none = [] ∧
    (∃ t, computeSpecialCreations noRunBoard
        [⟨[(0, 0), (1, 0), (2, 0), (3, 0)], 0, true⟩] none =
      [(t, ⟨t.1, t.2, Kind.rocket, 0⟩)]) ∧
    (∃ t, computeSpecialCreations noRunBoard
        [⟨[(0, 0), (1, 0), (2, 0), (3, 0), (4, 0)], 0, true⟩] none =
      [(t, ⟨t.1, t.2, Kind.bomb, 0⟩)]) := by
  refine ⟨((C6_creation_thresholds noRunBoard _ none).1 (by decide)).2, ?_, ?_⟩
  · obtain ⟨t, -, h⟩ := (C6_creation_thresholds noRunBoard
      ⟨[(0, 0), (1, 0), (2, 0), (3, 0)], 0, true⟩ none).2.1 (by decide)
    exact ⟨t, h⟩
  · obtain ⟨t, -, h⟩ := (C6_creation_thresholds noRunBoard
      ⟨[(0, 0), (1, 0), (2, 0), (3, 0), (4, 0)], 0, true⟩ none).2.2 (by decide)
    exact ⟨t, h⟩

/-! ## The Special-Piece Planner's target precedence (claim C5) -/

/-- Index distance along a run. -/
def idxDist (i j : Nat) : Nat := max i j - min i j

/-- The spec's target-selection rule, written from the spec's words for
comparison with the code: (a) a preferred cell inside the run holding a
Normal piece; (b) otherwise any preferred cell inside the run; (c) otherwise
the run's middle cell, or the nearest Normal-kind cell to the middle if the
exact middle is already special. -/
def specC5TargetRule (b : Board) (prefer : List (Nat × Nat)) (seg : Segment)
    (t : Nat × Nat) : Prop :=
  if ∃ pc ∈ prefer, pc ∈ seg.cells ∧ kindAt b pc = some Kind.normal then
    t ∈ prefer ∧ t ∈ seg.cells ∧ kindAt b t = some Kind.normal
  else if ∃ pc ∈ prefer, pc ∈ seg.cells then
    t ∈ prefer ∧ t ∈ seg.cells
  else
    ∃ m ∈ seg.cells, seg.cells[seg.cells.length / 2]? = some m ∧
      (if kindAt b m = some Kind.normal then t = m
       else
        ∃ i ∈ List.range seg.cells.length, seg.cells[i]? = some t ∧
          kindAt b t = some Kind.normal ∧
          ∀ j ∈ List.range seg.cells.length, ∀ c ∈ seg.cells,
            seg.cells[j]? = some c →
            kindAt b c = some Kind.normal →
            idxDist i (seg.cells.length / 2) ≤ idxDist j (seg.cells.length / 2))

instance specC5TargetRule.instDecidable (b : Board) (prefer : List (Nat × Nat))
    (seg : Segment) (t : Nat × Nat) : Decidable (specC5TargetRule b prefer seg t) := by
  unfold specC5TargetRule
  infer_instance

/-- The target-selection rule the code actually implements: clauses (a) and
(b) as in the spec, but clause (c) scans forward from the middle index,
wrapping around cyclically, and takes the first Normal-kind cell (falling back
to the middle cell when the run holds no Normal piece). -/
def amendedC5TargetRule (b : Board) (prefer : List (Nat × Nat)) (seg : Segment)
    (t : Nat × Nat) : Prop :=
  if ∃ pc ∈ prefer, pc ∈ seg.cells ∧ kindAt b pc = some Kind.normal then
    t ∈ prefer ∧ t ∈ seg.cells ∧ kindAt b t = some Kind.normal
  else if ∃ pc ∈ prefer, pc ∈ seg.cells then
    t ∈ prefer ∧ t ∈ seg.cells
  else if ∃ i ∈ List.range seg.cells.length, ∃ c,
      seg.cells[(seg.cells.length / 2 + i) % seg.cells.length]? = some c ∧
      kindAt b c = some Kind.normal then
    ∃ i ∈ List.range seg.cells.length,
      seg.cells[(seg.cells.length / 2 + i) % seg.cells.length]? = some t ∧
      kindAt b t = some Kind.normal ∧
      ∀ j < i, ∀ c,
        seg.cells[(seg.cells.length / 2 + j) % seg.cells.length]? = some c →
        ¬ kindAt b c = some Kind.normal
  else
    seg.cells[seg.cells.length / 2]? = some t

/-- The first success of `findSome?`: a success index all of whose
predecessors fail. -/
theorem findSome?_first {α β : Type} (f : α → Option β) :
    ∀ (l : List α) (r : β), l.findSome? f = some r →
      ∃ i : Nat, (∃ a, l[i]? = some a ∧ f a = some r) ∧
        ∀ j < i, ∀ a, l[j]? = some a → f a = none := by
  intro l
  induction l with
  | nil => intro r hr; simp [List.findSome?] at hr
  | cons a rest ih =>
    intro r hr
    rw [List.findSome?_cons] at hr
    cases hfa : f a with
    | some r' =>
      rw [hfa] at hr
      refine ⟨0, ⟨a, List.getElem?_cons_zero, by rw [hfa]; exact hr⟩, ?_⟩
      intro j hj
      omega
    | none =>
      rw [hfa] at hr
      obtain ⟨i, ⟨a', ha', hfa'⟩, hpre⟩ := ih r hr
      refine ⟨i + 1, ⟨a', by rwa [List.getElem?_cons_succ], hfa'⟩, ?_⟩
      intro j hj a'' ha''
      cases j with
      | zero =>
        rw [List.getElem?_cons_zero] at ha''
        cases ha''
        exact hfa
      | succ j =>
        rw [List.getElem?_cons_succ] at ha''
        exact hpre j (by omega) a'' ha''

/-- The code's target choice always satisfies the amended precedence rule on a
nonempty segment. -/
theorem chooseTarget_rule (b : Board) (prefer : List (Nat × Nat)) (seg : Segment)
    (hne : 0 < seg.cells.length) :
    ∃ t, chooseTarget b prefer seg = some t ∧
      amendedC5TargetRule b prefer seg t := by
  unfold chooseTarget
  cases hf1 : prefer.find? (fun pc =>
      seg.cells.contains pc && (kindAt b pc == some Kind.normal)) with
  | some pc =>
    refine ⟨pc, rfl, ?_⟩
    have hmem := List.mem_of_find?_eq_some hf1
    have hpred := List.find?_some hf1
    rw [Bool.and_eq_true, beq_iff_eq] at hpred
    have hcells : pc ∈ seg.cells := by simpa using hpred.1
    unfold amendedC5TargetRule
    rw [if_pos ⟨pc, hmem, hcells, hpred.2⟩]
    exact ⟨hmem, hcells, hpred.2⟩
  | none =>
    have hno1 : ¬ ∃ pc ∈ prefer, pc ∈ seg.cells ∧ kindAt b pc = some Kind.normal := by
      rintro ⟨pc, hmem, hcells, hkind⟩
      have := List.find?_eq_none.mp hf1 pc hmem
      apply this
      rw [Bool.and_eq_true, beq_iff_eq]
      exact ⟨by simpa using hcells, hkind⟩
    cases hf2 : prefer.find? (fun pc => seg.cells.contains pc) with
    | some pc =>
      refine ⟨pc, rfl, ?_⟩
      have hmem := List.mem_of_find?_eq_some hf2
      have hcells : pc ∈ seg.cells := by simpa using List.find?_some hf2
      unfold amendedC5TargetRule
      rw [if_neg hno1, if_pos ⟨pc, hmem, hcells⟩]
      exact ⟨hmem, hcells⟩
    | none =>
      have hno2 : ¬ ∃ pc ∈ prefer, pc ∈ seg.cells := by
        rintro ⟨pc, hmem, hcells⟩
        exact List.find?_eq_none.mp hf2 pc hmem (by simpa using hcells)
      cases hscan : (List.range seg.cells.length).findSome? (fun i =>
          match seg.cells[(seg.cells.length / 2 + i) % seg.cells.length]? with
          | some c => if kindAt b c = some Kind.normal then some c else none
          | none => none) with
      | some c =>
        refine ⟨c, rfl, ?_⟩
        obtain ⟨i, ⟨a, ha, hfa⟩, hpre⟩ := findSome?_first _ _ _ hscan
        have hilen : i < seg.cells.length := by
          by_contra hge
          rw [List.getElem?_eq_none_iff.mpr (by simpa [List.length_range] using hge)] at ha
          cases ha
        have hai : a = i := by
          rw [List.getElem?_range hilen] at ha
          cases ha
          rfl
        subst hai
        have hcell : seg.cells[(seg.cells.length / 2 + a) % seg.cells.length]? = some c
            ∧ kindAt b c = some Kind.normal := by
          revert hfa
          cases hcc : seg.cells[(seg.cells.length / 2 + a) % seg.cells.length]? with
          | none =>
            intro hfa
            change (none : Option (Nat × Nat)) = some c at hfa
            cases hfa
          | some c' =>
            intro hfa
            change (if kindAt b c' = some Kind.normal then some c' else none)
              = some c at hfa
            by_cases hk : kindAt b c' = some Kind.normal
            · rw [if_pos hk] at hfa
              cases hfa
              exact ⟨rfl, hk⟩
            · rw [if_neg hk] at hfa
              cases hfa
        unfold amendedC5TargetRule
        rw [if_neg hno1, if_neg hno2,
          if_pos ⟨a, List.mem_range.mpr hilen, c, hcell.1, hcell.2⟩]
        refine ⟨a, List.mem_range.mpr hilen, hcell.1, hcell.2, ?_⟩
        intro j hj c' hc' hk
        have hfj := hpre j hj j (List.getElem?_range (by omega))
        simp [hc', hk] at hfj
      | none =>
        have hnonorm : ¬ ∃ i ∈ List.range seg.cells.length, ∃ c,
            seg.cells[(seg.cells.length / 2 + i) % seg.cells.length]? = some c ∧
            kindAt b c = some Kind.normal := by
          rintro ⟨i, hmem, c, hc, hk⟩
          have := List.findSome?_eq_none_iff.mp hscan i hmem
          simp [hc, hk] at this
        have hmid : seg.cells.length / 2 < seg.cells.length :=
          Nat.div_lt_self hne (by omega)
        cases hget : seg.cells[seg.cells.length / 2]? with
        | some m =>
          refine ⟨m, by simp [hget], ?_⟩
          unfold amendedC5TargetRule
          rw [if_neg hno1, if_neg hno2, if_neg hnonorm]
          exact hget
        | none =>
          rw [List.getElem?_eq_none_iff] at hget
          omega

/-! ### Creation-map bookkeeping for the supersedence rule -/

theorem lookup_map_mset_self (k : Nat × Nat) (v : Creation) :
    ∀ m0 : CreationMap, (m0.lookup k).isSome →
    ((m0.map (fun p => if p.1 = k then (k, v) else p)).lookup k) = some v := by
  intro m0
  induction m0 with
  | nil => intro h; simp at h
  | cons p rest ih =>
    obtain ⟨pk, pv⟩ := p
    intro h
    by_cases hp : pk = k
    · subst hp
      rw [List.map_cons, if_pos (show ((pk, pv).1 = pk) from rfl),
        List.lookup_cons, beq_self_eq_true]
    · have hne : (k == pk) = false := by
        rw [beq_eq_false_iff_ne]
        exact fun h' => hp h'.symm
      simp only [List.map_cons, List.lookup_cons, hne] at h ⊢
      rw [if_neg (by simpa using hp)]
      simp only [List.lookup_cons, hne]
      exact ih h

theorem lookup_map_mset_ne (k : Nat × Nat) (v : Creation) (k' : Nat × Nat)
    (hne : k' ≠ k) : ∀ m0 : CreationMap,
    ((m0.map (fun p => if p.1 = k then (k, v) else p)).lookup k') = m0.lookup k' := by
  intro m0
  induction m0 with
  | nil => simp
  | cons p rest ih =>
    obtain ⟨pk, pv⟩ := p
    by_cases hp : pk = k
    · subst hp
      have h1 : (k' == pk) = false := by rwa [beq_eq_false_iff_ne]
      rw [List.map_cons, if_pos (show ((pk, pv).1 = pk) from rfl),
        List.lookup_cons, List.lookup_cons, h1]
      exact ih
    · rw [List.map_cons, if_neg (by simpa using hp), List.lookup_cons,
        List.lookup_cons]
      cases hk' : (k' == pk) with
      | true => rfl
      | false => exact ih

theorem lookup_append_right (k : Nat × Nat) (v : Creation) :
    ∀ m : CreationMap, m.lookup k = none → (m ++ [(k, v)]).lookup k = some v := by
  intro m
  induction m with
  | nil => intro _; simp [List.lookup_cons]
  | cons p rest ih =>
    obtain ⟨pk, pv⟩ := p
    intro h
    rw [List.lookup_cons] at h
    rw [List.cons_append, List.lookup_cons]
    cases hk : (k == pk) with
    | true => rw [hk] at h; cases h
    | false =>
      rw [hk] at h
      exact ih h

theorem lookup_append_ne (k : Nat × Nat) (v : Creation) (k' : Nat × Nat)
    (hne : k' ≠ k) :
    ∀ m : CreationMap, (m ++ [(k, v)]).lookup k' = m.lookup k' := by
  intro m
  induction m with
  | nil =>
    simp only [List.nil_append, List.lookup_cons, List.lookup_nil]
    rw [show (k' == k) = false by rwa [beq_eq_false_iff_ne]]
  | cons p rest ih =>
    obtain ⟨pk, pv⟩ := p
    rw [List.cons_append, List.lookup_cons, List.lookup_cons]
    cases hk : (k' == pk) with
    | true => rfl
    | false => exact ih

theorem mset_lookup_self (m : CreationMap) (k : Nat × Nat) (v : Creation) :
    (mset m k v).lookup k = some v := by
  unfold mset
  by_cases h : (m.lookup k).isSome
  · rw [if_pos h]
    exact lookup_map_mset_self k v m h
  · rw [if_neg h]
    rw [Option.not_isSome_iff_eq_none] at h
    exact lookup_append_right k v m h

theorem mset_lookup_ne (m : CreationMap) (k : Nat × Nat) (v : Creation)
    (k' : Nat × Nat) (hne : k' ≠ k) :
    (mset m k v).lookup k' = m.lookup k' := by
  unfold mset
  by_cases h : (m.lookup k).isSome
  · rw [if_pos h]
    exact lookup_map_mset_ne k v k' hne m
  · rw [if_neg h]
    exact lookup_append_ne k v k' hne m

/-- Decoding a successful per-run creation. -/
theorem runCreation_target (b : Board) (prefer : List (Nat × Nat)) (seg : Segment)
    (k : Nat × Nat) (v : Creation)
    (h : runCreation b prefer seg = some (k, v)) :
    4 ≤ seg.cells.length ∧ chooseTarget b prefer seg = some k ∧
      (v.kind = Kind.bomb ↔ 5 ≤ seg.cells.length) ∧ v.kind ≠ Kind.normal := by
  unfold runCreation at h
  by_cases hlen : seg.cells.length < 4
  · rw [if_pos hlen] at h
    cases h
  · rw [if_neg hlen] at h
    cases hct : chooseTarget b prefer seg with
    | none =>
      rw [hct] at h
      simp only [] at h
      cases h
    | some t =>
      rw [hct] at h
      simp only [] at h
      have hkv := Option.some.inj h
      have hk : t = k := congrArg Prod.fst hkv
      have hv : (⟨t.1, t.2,
          if 5 ≤ seg.cells.length then Kind.bomb else Kind.rocket,
          seg.color⟩ : Creation) = v := congrArg Prod.snd hkv
      subst hk
      refine ⟨by omega, rfl, ?_, ?_⟩
      · rw [← hv]
        by_cases h5 : 5 ≤ seg.cells.length
        · simp [h5]
        · simp [h5]
      · rw [← hv]
        by_cases h5 : 5 ≤ seg.cells.length
        · simp [h5]
        · simp [h5]

/-- Building a per-run creation from its target. -/
theorem runCreation_of_target (b : Board) (prefer : List (Nat × Nat))
    (seg : Segment) (k : Nat × Nat) (hlen : 4 ≤ seg.cells.length)
    (hct : chooseTarget b prefer seg = some k) :
    runCreation b prefer seg =
      some (k, ⟨k.1, k.2,
        if 5 ≤ seg.cells.length then Kind.bomb else Kind.rocket, seg.color⟩) := by
  unfold runCreation
  rw [if_neg (by omega), hct]

/-- The lookup value after one step of the creation fold, by cases. -/
theorem creationStep_lookup (b : Board) (prefer : List (Nat × Nat))
    (out : CreationMap) (seg : Segment) (k : Nat × Nat) :
    (creationStep b prefer out seg).lookup k =
      match runCreation b prefer seg with
      | none => out.lookup k
      | some (k0, v) =>
          if k = k0 then
            match out.lookup k0 with
            | none => some v
            | some ex =>
                if ex.kind = Kind.rocket ∧ v.kind = Kind.bomb then some v
                else some ex
          else out.lookup k := by
  cases hrc : runCreation b prefer seg with
  | none => simp [creationStep, hrc]
  | some kv =>
    obtain ⟨k0, v⟩ := kv
    by_cases hk : k = k0
    · subst hk
      cases hlk : out.lookup k with
      | none => simp [creationStep, hrc, hlk, mset_lookup_self]
      | some ex =>
        by_cases hcond : ex.kind = Kind.rocket ∧ v.kind = Kind.bomb
        · simp [creationStep, hrc, hlk, hcond, mset_lookup_self]
        · simp [creationStep, hrc, hlk, hcond]
    · cases hlk : out.lookup k0 with
      | none => simp [creationStep, hrc, hlk, mset_lookup_ne out k0 v k hk, hk]
      | some ex =>
        by_cases hcond : ex.kind = Kind.rocket ∧ v.kind = Kind.bomb
        · simp [creationStep, hrc, hlk, hcond, mset_lookup_ne out k0 v k hk, hk]
        · simp [creationStep, hrc, hlk, hcond, hk]

/-- One step of the creation fold preserves present keys. -/
theorem creationStep_preserves (b : Board) (prefer : List (Nat × Nat))
    (out : CreationMap) (seg : Segment) (k : Nat × Nat)
    (h : (out.lookup k).isSome) :
    ((creationStep b prefer out seg).lookup k).isSome := by
  rw [creationStep_lookup]
  cases hrc : runCreation b prefer seg with
  | none => exact h
  | some kv =>
    obtain ⟨k0, v⟩ := kv
    simp only []
    by_cases hk : k = k0
    · subst hk
      rw [if_pos rfl]
      cases hlk : out.lookup k with
      | none => rw [hlk] at h; cases h
      | some ex =>
        simp only []
        by_cases hcond : ex.kind = Kind.rocket ∧ v.kind = Kind.bomb
        · rw [if_pos hcond]
          rfl
        · rw [if_neg hcond]
          rfl
    · rw [if_neg hk]
      exact h

/-- The invariant of the creation fold: an entry is a Bomb exactly when some
already-processed run of length at least 5 targeted its cell, and entries are
never Normal. -/
theorem creations_fold_inv (b : Board) (prefer : List (Nat × Nat)) :
    ∀ (segs : List Segment) (out : CreationMap) (Q : (Nat × Nat) → Prop),
    (∀ k cr, out.lookup k = some cr → (cr.kind = Kind.bomb ↔ Q k)) →
    (∀ k cr, out.lookup k = some cr → cr.kind ≠ Kind.normal) →
    (∀ k, Q k → (out.lookup k).isSome) →
    ∀ k cr, ((segs.foldl (creationStep b prefer) out).lookup k = some cr) →
      ((cr.kind = Kind.bomb ↔ (Q k ∨ ∃ seg ∈ segs, 5 ≤ seg.cells.length ∧
          chooseTarget b prefer seg = some k))
        ∧ cr.kind ≠ Kind.normal) := by
  intro segs
  induction segs with
  | nil =>
    intro out Q h1 h3 h2 k cr hcr
    rw [List.foldl_nil] at hcr
    refine ⟨?_, h3 k cr hcr⟩
    rw [h1 k cr hcr]
    simp
  | cons seg rest ih =>
    intro out Q h1 h3 h2 k cr hcr
    rw [List.foldl_cons] at hcr
    have main := ih (creationStep b prefer out seg)
      (fun k => Q k ∨ (5 ≤ seg.cells.length ∧ chooseTarget b prefer seg = some k))
      ?inv1 ?inv3 ?inv2 k cr hcr
    · obtain ⟨hiff, hnn⟩ := main
      refine ⟨?_, hnn⟩
      rw [hiff, List.exists_mem_cons_iff]
      tauto
    case inv3 =>
      intro k' cr' hcr'
      rw [creationStep_lookup] at hcr'
      cases hrc : runCreation b prefer seg with
      | none =>
        rw [hrc] at hcr'
        exact h3 k' cr' hcr'
      | some kv =>
        obtain ⟨k0, v⟩ := kv
        rw [hrc] at hcr'
        simp only [] at hcr'
        have hv := (runCreation_target b prefer seg k0 v hrc).2.2.2
        by_cases hk : k' = k0
        · rw [if_pos hk] at hcr'
          cases hlk : out.lookup k0 with
          | none =>
            rw [hlk] at hcr'
            simp only [] at hcr'
            cases hcr'
            exact hv
          | some ex =>
            rw [hlk] at hcr'
            simp only [] at hcr'
            by_cases hcond : ex.kind = Kind.rocket ∧ v.kind = Kind.bomb
            · rw [if_pos hcond] at hcr'
              cases hcr'
              exact hv
            · rw [if_neg hcond] at hcr'
              cases hcr'
              exact h3 k0 cr' hlk
        · rw [if_neg hk] at hcr'
          exact h3 k' cr' hcr'
    case inv2 =>
      intro k' hQ'
      rcases hQ' with hQ | ⟨h5, hct⟩
      · exact creationStep_preserves b prefer out seg k' (h2 k' hQ)
      · have hrc := runCreation_of_target b prefer seg k' (by omega) hct
        cases hlk : out.lookup k' with
        | none => simp [creationStep_lookup, hrc, hlk]
        | some ex =>
          simp [creationStep_lookup, hrc, hlk, apply_ite Option.isSome]
    case inv1 =>
      intro k' cr' hcr'
      rw [creationStep_lookup] at hcr'
      cases hrc : runCreation b prefer seg with
      | none =>
        rw [hrc] at hcr'
        rw [h1 k' cr' hcr']
        have hnot : ¬ (5 ≤ seg.cells.length ∧
            chooseTarget b prefer seg = some k') := by
          rintro ⟨h5, hct⟩
          rw [runCreation_of_target b prefer seg k' (by omega) hct] at hrc
          cases hrc
        tauto
      | some kv =>
        obtain ⟨k0, v⟩ := kv
        rw [hrc] at hcr'
        simp only [] at hcr'
        obtain ⟨hlen, hct0, hvbomb, hvnn⟩ := runCreation_target b prefer seg k0 v hrc
        by_cases hk : k' = k0
        · subst hk
          rw [if_pos rfl] at hcr'
          cases hlk : out.lookup k' with
          | none =>
            rw [hlk] at hcr'
            simp only [] at hcr'
            cases hcr'
            have hQfalse : ¬ Q k' := by
              intro hQ
              have hs := h2 k' hQ
              rw [hlk] at hs
              cases hs
            rw [hvbomb]
            constructor
            · intro h5
              exact Or.inr ⟨h5, hct0⟩
            · rintro (hQ | ⟨h5, -⟩)
              · exact absurd hQ hQfalse
              · exact h5
          | some ex =>
            rw [hlk] at hcr'
            simp only [] at hcr'
            by_cases hcond : ex.kind = Kind.rocket ∧ v.kind = Kind.bomb
            · rw [if_pos hcond] at hcr'
              cases hcr'
              constructor
              · intro
                exact Or.inr ⟨hvbomb.mp hcond.2, hct0⟩
              · intro
                exact hcond.2
            · rw [if_neg hcond] at hcr'
              cases hcr'
              by_cases h5 : 5 ≤ seg.cells.length
              · have hvb : v.kind = Kind.bomb := hvbomb.mpr h5
                have hexb : cr'.kind = Kind.bomb := by
                  have hexnn := h3 k' cr' hlk
                  cases hex : cr'.kind with
                  | normal => exact absurd hex hexnn
                  | rocket => exact absurd ⟨hex, hvb⟩ hcond
                  | bomb => rfl
                have hQ : Q k' := (h1 k' cr' hlk).mp hexb
                exact ⟨fun _ => Or.inl hQ, fun _ => hexb⟩
              · rw [h1 k' cr' hlk]
                constructor
                · exact Or.inl
                · rintro (hq | ⟨h5', -⟩)
                  · exact hq
                  · exact absurd h5' h5
        · rw [if_neg hk] at hcr'
          rw [h1 k' cr' hcr']
          have hnot : ¬ (5 ≤ seg.cells.length ∧
              chooseTarget b prefer seg = some k') := by
            rintro ⟨-, hct⟩
            rw [hct0] at hct
            cases hct
            exact hk rfl
          tauto

/-- The board of the C5 counterexample: a vertical five-run of color 0 in
column 0, Normal at rows 0 and 1, Rocket-kind at rows 2, 3 and 4. -/
def cex5Board : Board := fun y x =>
  if x = 0 ∧ y < 5 then
    if 2 ≤ y then some ⟨y + 1, 0, Kind.rocket⟩ else some ⟨y + 1, 0, Kind.normal⟩
  else none

/-- The detected vertical five-run of the C5 counterexample. -/
def cex5Seg : Segment := ⟨[(0, 0), (0, 1), (0, 2), (0, 3), (0, 4)], 0, false⟩

/-- C5 counterexample: with no preferred cells, a five-run whose middle cell
and the two cells after it are special, the planner picks the run's first cell
(index distance 2 from the middle) even though a Normal cell at index distance
1 exists — the choice is the first Normal cell scanning cyclically forward
from the middle, not the nearest Normal cell to the middle. -/
theorem C5_counterexample :
    computeSpecialCreations cex5Board [cex5Seg] none =
      [((0, 0), ⟨0, 0, Kind.bomb, 0⟩)] ∧
    ¬ specC5TargetRule cex5Board (preferOf none) cex5Seg (0, 0) ∧
    specC5TargetRule cex5Board (preferOf none) cex5Seg (0, 1) := by
  refine ⟨by decide, by decide, by decide⟩

/-- C5 amended: for every qualifying run (length at least 4) the planner
chooses a target with the precedence (a) a preferred cell inside the run
holding a Normal piece, (b) otherwise any preferred cell inside the run, (c)
otherwise the first Normal cell scanning cyclically forward from the run's
middle index (the middle cell itself when the run holds no Normal piece); and
an entry of the creation map is a Bomb exactly when some run of length at
least 5 chose its cell, so a Bomb creation supersedes a Rocket creation at the
same target cell. -/
theorem C5_planner_precedence (b : Board) (segs : List Segment)
    (pref : Option ((Nat × Nat) × (Nat × Nat))) :
    (∀ seg ∈ segs, 4 ≤ seg.cells.length →
      ∃ t, chooseTarget b (preferOf pref) seg = some t ∧
        amendedC5TargetRule b (preferOf pref) seg t) ∧
    (∀ k cr, (computeSpecialCreations b segs pref).lookup k = some cr →
      (cr.kind = Kind.bomb ↔ ∃ seg ∈ segs, 5 ≤ seg.cells.length ∧
        chooseTarget b (preferOf pref) seg = some k)) := by
  constructor
  · intro seg _ hlen
    exact chooseTarget_rule b (preferOf pref) seg (by omega)
  · intro k cr hcr
    have hmain := creations_fold_inv b (preferOf pref) segs [] (fun _ => False)
      (by intro k' cr' h; simp at h)
      (by intro k' cr' h; simp at h)
      (by intro k' h; cases h)
      k cr hcr
    rw [hmain.1]
    simp

/-- Witness for C5 amended, at the concrete five-run: the chosen target
satisfies the amended rule and the created entry is a Bomb. -/
theorem C5_witness :
    (∃ t, chooseTarget cex5Board (preferOf none) cex5Seg = some t ∧
      amendedC5TargetRule cex5Board (preferOf none) cex5Seg t) ∧
    ((⟨0, 0, Kind.bomb, 0⟩ : Creation).kind = Kind.bomb ↔
      ∃ seg ∈ [cex5Seg], 5 ≤ seg.cells.length ∧
        chooseTarget cex5Board (preferOf none) seg = some (0, 0)) :=
  ⟨(C5_planner_precedence cex5Board [cex5Seg] none).1 cex5Seg
      (List.mem_singleton.mpr rfl) (by decide),
   (C5_planner_precedence cex5Board [cex5Seg] none).2 (0, 0)
      ⟨0, 0, Kind.bomb, 0⟩ (by decide)⟩

/-! ## Swap revert (claim C3) -/

/-- Swapping the same two cells twice restores the board exactly. -/
theorem swapCells_involutive (b : Board) (p q : Nat × Nat) :
    swapCells (swapCells b p q) p q = b := by
  funext y x
  unfold swapCells
  by_cases h1 : y = p.2 ∧ x = p.1
  · rw [if_pos h1]
    by_cases hqp : q.2 = p.2 ∧ q.1 = p.1
    · rw [if_pos hqp, hqp.1, hqp.2, ← h1.1, ← h1.2]
    · rw [if_neg hqp, if_pos (⟨rfl, rfl⟩ : q.2 = q.2 ∧ q.1 = q.1), h1.1, h1.2]
  · rw [if_neg h1]
    by_cases h2 : y = q.2 ∧ x = q.1
    · rw [if_pos h2, if_pos (⟨rfl, rfl⟩ : p.2 = p.2 ∧ p.1 = p.1), h2.1, h2.2]
    · rw [if_neg h2, if_neg h1, if_neg h2]

/-- C3: a swap of two in-bounds, Manhattan-distance-1, occupied cells that
produces no run anywhere reverts: the returned grid is the pre-swap grid
itself (cell for cell, same piece in the same cell), the score delta is zero,
and the outcome is `noMatch` — not a rejection and not a fatal error. -/
theorem C3_swap_no_match_reverts (o : Oracle) (fuel : Nat) (b : Board)
    (origin target : Nat × Nat)
    (hbounds : origin.1 < 8 ∧ origin.2 < 8 ∧ target.1 < 8 ∧ target.2 < 8)
    (hman : manhattan origin target = 1)
    (p q : Piece) (hp : b origin.2 origin.1 = some p)
    (hq : b target.2 target.1 = some q)
    (hnomatch : findMatchSegments (swapCells b origin target) = []) :
    attemptSwap o fuel false b origin target =
      some (b, 0, SwapOutcome.noMatch) := by
  unfold attemptSwap
  rw [if_neg (by simp)]
  rw [if_neg (not_not_intro hbounds)]
  rw [if_neg (not_not_intro hman)]
  rw [hp, hq]
  simp only []
  rw [if_pos hnomatch, swapCells_involutive]

/-- Witness for C3: a no-match swap on the concrete run-free board. -/
theorem C3_witness :
    attemptSwap zeroOracle 0 false noRunBoard (0, 0) (1, 0) =
      some (noRunBoard, 0, SwapOutcome.noMatch) :=
  C3_swap_no_match_reverts zeroOracle 0 noRunBoard (0, 0) (1, 0)
    (by decide) (by decide) ⟨1, 0, Kind.normal⟩ ⟨2, 1, Kind.normal⟩
    (by decide) (by decide) (by decide)

/-! ## No empty cells after a completed resolution (claim C8) -/

/-- The collapse-and-refill always leaves every in-bounds cell occupied. -/
theorem collapse_full (fr : Nat → Nat → Piece) (b : Board) :
    boardFull (collapseAndFillAnimated fr b) := by
  intro y x
  unfold collapseAndFillAnimated
  rw [if_pos ⟨x.isLt, y.isLt⟩]
  cases (colPieces b x.val)[7 - y.val]? <;> rfl

/-- Decomposing a committed resolution pass. -/
theorem resolveStep_some_shape (o : Oracle) (pass : Nat) (b : Board)
    (pref : Option ((Nat × Nat) × (Nat × Nat))) (b' : Board) (d : Nat)
    (h : resolveStep o pass b pref = some (b', d)) :
    b' = collapseAndFillAnimated (freshPiece o pass)
        (applyCreations o pass (passCreations b pref)
          (clearBoard b (passWillClear b pref)))
      ∧ d = (passWillClear b pref).card
      ∧ findMatchSegments b ≠ [] ∧ passWillClear b pref ≠ ∅ := by
  unfold resolveStep at h
  by_cases hsegs : findMatchSegments b = []
  · rw [if_pos hsegs] at h
    cases h
  · rw [if_neg hsegs] at h
    simp only [] at h
    by_cases hwc : passWillClear b pref = ∅
    · rw [if_pos hwc] at h
      cases h
    · rw [if_neg hwc] at h
      have := Option.some.inj h
      exact ⟨(congrArg Prod.fst this).symm, (congrArg Prod.snd this).symm,
        hsegs, hwc⟩

/-- The resolution loop preserves fullness (each committed pass ends with a
collapse, and the loop returns the current board otherwise). -/
theorem resolveLoop_full (o : Oracle) :
    ∀ (fuel pass : Nat) (b : Board) (pref : Option ((Nat × Nat) × (Nat × Nat)))
      (b' : Board) (s : Nat), boardFull b →
      resolveLoop o fuel pass b pref = some (b', s) → boardFull b' := by
  intro fuel
  induction fuel with
  | zero => intro pass b pref b' s _ h; cases h
  | succ fuel ih =>
    intro pass b pref b' s hfull h
    unfold resolveLoop at h
    cases hstep : resolveStep o pass b pref with
    | none =>
      rw [hstep] at h
      simp only [] at h
      have hb : b = b' := congrArg Prod.fst (Option.some.inj h)
      rw [← hb]
      exact hfull
    | some r =>
      obtain ⟨b1, d⟩ := r
      rw [hstep] at h
      simp only [Option.map_eq_some'] at h
      obtain ⟨r', hr', heq⟩ := h
      have hb1 : boardFull b1 := by
        rw [(resolveStep_some_shape o pass b pref b1 d hstep).1]
        exact collapse_full _ _
      have hres := ih (pass + 1) b1 none r'.1 r'.2 hb1 (by rw [hr'])
      have hb : r'.1 = b' := congrArg Prod.fst heq
      rw [← hb]
      exact hres

/-- Swapping two in-bounds cells preserves fullness. -/
theorem swapCells_full (b : Board) (p q : Nat × Nat)
    (hp : p.1 < 8 ∧ p.2 < 8) (hq : q.1 < 8 ∧ q.2 < 8)
    (hfull : boardFull b) : boardFull (swapCells b p q) := by
  intro y x
  unfold swapCells
  by_cases h1 : y.val = p.2 ∧ x.val = p.1
  · rw [if_pos h1]
    exact hfull ⟨q.2, hq.2⟩ ⟨q.1, hq.1⟩
  · rw [if_neg h1]
    by_cases h2 : y.val = q.2 ∧ x.val = q.1
    · rw [if_pos h2]
      exact hfull ⟨p.2, hp.2⟩ ⟨p.1, hp.1⟩
    · rw [if_neg h2]
      exact hfull y x

/-- C8: after any completed resolution — the loop returned following a
committed swap-match, and any completed special-piece activation — every cell
of the 8x8 grid holds a piece, provided the grid was full when the action
started (the resting-state invariant). -/
theorem C8_no_empty_after_resolution (o : Oracle) (fuel : Nat) (busy : Bool)
    (b : Board) (origin target : Nat × Nat) (topt : Option (Nat × Nat))
    (pass : Nat) (pref : Option ((Nat × Nat) × (Nat × Nat))) :
    (∀ b' s, boardFull b → resolveLoop o fuel pass b pref = some (b', s) →
      boardFull b') ∧
    (∀ b' s out, boardFull b → attemptSwap o fuel busy b origin target =
      some (b', s, out) → boardFull b') ∧
    (∀ b' s, boardFull b → detonateSpecial o fuel busy b origin topt =
      some (b', s) → boardFull b') := by
  refine ⟨fun b' s hfull h => resolveLoop_full o fuel pass b pref b' s hfull h,
    ?_, ?_⟩
  · intro b' s out hfull h
    unfold attemptSwap at h
    by_cases hbusy : busy = true
    · rw [if_pos hbusy] at h
      have hb : b = b' := congrArg Prod.fst (Option.some.inj h)
      rw [← hb]
      exact hfull
    · rw [if_neg hbusy] at h
      by_cases hb8 : ¬ (origin.1 < 8 ∧ origin.2 < 8 ∧ target.1 < 8 ∧ target.2 < 8)
      · rw [if_pos hb8] at h
        have hb : b = b' := congrArg Prod.fst (Option.some.inj h)
        rw [← hb]
        exact hfull
      · rw [if_neg hb8] at h
        rw [not_not] at hb8
        by_cases hman : manhattan origin target ≠ 1
        · rw [if_pos hman] at h
          have hb : b = b' := congrArg Prod.fst (Option.some.inj h)
          rw [← hb]
          exact hfull
        · rw [if_neg hman] at h
          cases hporig : b origin.2 origin.1 with
          | none =>
            rw [hporig] at h
            simp only [] at h
            have hb : b = b' := congrArg Prod.fst (Option.some.inj h)
            rw [← hb]
            exact hfull
          | some pp =>
            rw [hporig] at h
            cases hptgt : b target.2 target.1 with
            | none =>
              rw [hptgt] at h
              simp only [] at h
              have hb : b = b' := congrArg Prod.fst (Option.some.inj h)
              rw [← hb]
              exact hfull
            | some qq =>
              rw [hptgt] at h
              simp only [] at h
              by_cases hnm : findMatchSegments (swapCells b origin target) = []
              · rw [if_pos hnm] at h
                have hb : swapCells (swapCells b origin target) origin target = b' :=
                  congrArg Prod.fst (Option.some.inj h)
                rw [← hb, swapCells_involutive]
                exact hfull
              · rw [if_neg hnm, Option.map_eq_some'] at h
                obtain ⟨r, hr, heq⟩ := h
                have hfull1 : boardFull (swapCells b origin target) :=
                  swapCells_full b origin target ⟨hb8.1, hb8.2.1⟩
                    ⟨hb8.2.2.1, hb8.2.2.2⟩ hfull
                have hres := resolveLoop_full o fuel 0
                  (swapCells b origin target) (some (origin, target))
                  r.1 r.2 hfull1 (by rw [hr])
                have hb : r.1 = b' := congrArg Prod.fst heq
                rw [← hb]
                exact hres
  · intro b' s hfull h
    unfold detonateSpecial at h
    by_cases hbusy : busy = true
    · rw [if_pos hbusy] at h
      have hb : b = b' := congrArg Prod.fst (Option.some.inj h)
      rw [← hb]
      exact hfull
    · rw [if_neg hbusy] at h
      cases hop : b origin.2 origin.1 with
      | none =>
        rw [hop] at h
        simp only [] at h
        have hb : b = b' := congrArg Prod.fst (Option.some.inj h)
        rw [← hb]
        exact hfull
      | some pp =>
        rw [hop] at h
        simp only [] at h
        by_cases hkind : pp.kind = Kind.normal
        · rw [if_pos hkind] at h
          have hb : b = b' := congrArg Prod.fst (Option.some.inj h)
          rw [← hb]
          exact hfull
        · rw [if_neg hkind, Option.map_eq_some'] at h
          obtain ⟨r, hr, heq⟩ := h
          have hfull2 : boardFull (collapseAndFillAnimated (freshPiece o 0)
              (detonateClearBoard b origin topt)) := collapse_full _ _
          have hres := resolveLoop_full o fuel 1 _ none r.1 r.2 hfull2 (by rw [hr])
          have hb : r.1 = b' := congrArg Prod.fst heq
          rw [← hb]
          exact hres

/-- Witness for C8: a resolution on the concrete run-free full board exits at
once and leaves the board full. -/
theorem C8_witness : boardFull noRunBoard :=
  (C8_no_empty_after_resolution zeroOracle 1 false noRunBoard (0, 0) (1, 0)
      none 0 none).1 noRunBoard 0 (by decide) rfl

/-! ## Structure of the Run Detector (claims C1 and C2) -/

/-- Bounds of the runs emitted by the scanner: every run starts at or after
the current run start, has length at least 3, and ends within the line. -/
theorem findRuns_bounds (l : List (Option Nat)) :
    ∀ pos rc rs, rs ≤ pos →
      ∀ r ∈ findRuns l pos rc rs,
        rs ≤ r.1 ∧ 3 ≤ r.2.1 ∧ r.1 + r.2.1 ≤ pos + l.length := by
  induction l with
  | nil =>
    intro pos rc rs hle r hr
    unfold findRuns at hr
    cases rc with
    | none =>
      simp only [] at hr
      cases hr
    | some c0 =>
      simp only [] at hr
      by_cases h3 : 3 ≤ pos - rs
      · rw [if_pos h3, List.mem_singleton] at hr
        subst hr
        refine ⟨le_refl rs, h3, ?_⟩
        show rs + (pos - rs) ≤ pos + [].length
        simp only [List.length_nil]
        omega
      · rw [if_neg h3] at hr
        cases hr
  | cons c rest ih =>
    intro pos rc rs hle r hr
    unfold findRuns at hr
    by_cases hc : c = rc
    · rw [if_pos hc] at hr
      have hb := ih (pos + 1) rc rs (by omega) r hr
      refine ⟨hb.1, hb.2.1, ?_⟩
      have := hb.2.2
      simp only [List.length_cons]
      omega
    · rw [if_neg hc, List.mem_append] at hr
      rcases hr with hr | hr
      · cases rc with
        | none =>
          simp only [] at hr
          cases hr
        | some c0 =>
          simp only [] at hr
          by_cases h3 : 3 ≤ pos - rs
          · rw [if_pos h3, List.mem_singleton] at hr
            subst hr
            refine ⟨le_refl rs, h3, ?_⟩
            show rs + (pos - rs) ≤ pos + (c :: rest).length
            simp only [List.length_cons]
            omega
          · rw [if_neg h3] at hr
            cases hr
      · have hb := ih (pos + 1) c pos (by omega) r hr
        refine ⟨le_trans hle hb.1, hb.2.1, ?_⟩
        have := hb.2.2
        simp only [List.length_cons]
        omega

/-- The runs emitted by the scanner occupy pairwise disjoint, left-to-right
ordered index intervals. -/
theorem findRuns_pairwise (l : List (Option Nat)) :
    ∀ pos rc rs, rs ≤ pos →
      List.Pairwise (fun a b : Run => a.1 + a.2.1 ≤ b.1)
        (findRuns l pos rc rs) := by
  induction l with
  | nil =>
    intro pos rc rs hle
    unfold findRuns
    cases rc with
    | none => exact List.Pairwise.nil
    | some c0 =>
      simp only []
      by_cases h3 : 3 ≤ pos - rs
      · rw [if_pos h3]
        exact List.pairwise_singleton _ _
      · rw [if_neg h3]
        exact List.Pairwise.nil
  | cons c rest ih =>
    intro pos rc rs hle
    unfold findRuns
    by_cases hc : c = rc
    · rw [if_pos hc]
      exact ih (pos + 1) rc rs (by omega)
    · rw [if_neg hc]
      rw [List.pairwise_append]
      refine ⟨?_, ih (pos + 1) c pos (by omega), ?_⟩
      · cases rc with
        | none => exact List.Pairwise.nil
        | some c0 =>
          simp only []
          by_cases h3 : 3 ≤ pos - rs
          · rw [if_pos h3]
            exact List.pairwise_singleton _ _
          · rw [if_neg h3]
            exact List.Pairwise.nil
      · intro a ha r hr
        have hrb := (findRuns_bounds rest (pos + 1) c pos (by omega) r hr).1
        cases rc with
        | none =>
          simp only [] at ha
          cases ha
        | some c0 =>
          simp only [] at ha
          by_cases h3 : 3 ≤ pos - rs
          · rw [if_pos h3, List.mem_singleton] at ha
            subst ha
            show rs + (pos - rs) ≤ r.1
            omega
          · rw [if_neg h3] at ha
            cases ha

/-- Soundness of the scanner: every cell of an emitted run carries the run's
color in the original line. -/
theorem findRuns_sound (l : List (Option Nat)) :
    ∀ pos rc rs (orig : List (Option Nat)), orig.drop pos = l → rs ≤ pos →
      (∀ i, rs ≤ i → i < pos → orig[i]? = some rc) →
      ∀ r ∈ findRuns l pos rc rs, ∀ i, r.1 ≤ i → i < r.1 + r.2.1 →
        orig[i]? = some (some r.2.2) := by
  induction l with
  | nil =>
    intro pos rc rs orig hdrop hle hinv r hr i h1 h2
    unfold findRuns at hr
    cases rc with
    | none =>
      simp only [] at hr
      cases hr
    | some c0 =>
      simp only [] at hr
      by_cases h3 : 3 ≤ pos - rs
      · rw [if_pos h3, List.mem_singleton] at hr
        subst hr
        simp only [] at h1 h2 ⊢
        exact hinv i h1 (by omega)
      · rw [if_neg h3] at hr
        cases hr
  | cons c rest ih =>
    intro pos rc rs orig hdrop hle hinv r hr i h1 h2
    have hpos : orig[pos]? = some c := by
      have h0 : (orig.drop pos)[0]? = some c := by
        rw [hdrop, List.getElem?_cons_zero]
      rwa [List.getElem?_drop, Nat.add_zero] at h0
    have hdrop2 : orig.drop (pos + 1) = rest := by
      have hdd : orig.drop (pos + 1) = (orig.drop pos).drop 1 := by
        rw [List.drop_drop, Nat.add_comm]
      rw [hdd, hdrop, List.drop_one, List.tail_cons]
    unfold findRuns at hr
    by_cases hc : c = rc
    · rw [if_pos hc] at hr
      refine ih (pos + 1) rc rs orig hdrop2 (by omega) ?_ r hr i h1 h2
      intro j hj1 hj2
      by_cases hjp : j < pos
      · exact hinv j hj1 hjp
      · have hj : j = pos := by omega
        rw [hj, hpos, hc]
    · rw [if_neg hc, List.mem_append] at hr
      rcases hr with hr | hr
      · cases rc with
        | none =>
          simp only [] at hr
          cases hr
        | some c0 =>
          simp only [] at hr
          by_cases h3 : 3 ≤ pos - rs
          · rw [if_pos h3, List.mem_singleton] at hr
            subst hr
            simp only [] at h1 h2 ⊢
            exact hinv i h1 (by omega)
          · rw [if_neg h3] at hr
            cases hr
      · refine ih (pos + 1) c pos orig hdrop2 (by omega) ?_ r hr i h1 h2
        intro j hj1 hj2
        have hj : j = pos := by omega
        rw [hj, hpos]

theorem rowLine_length (b : Board) (y : Nat) : (rowLine b y).length = 8 := by
  simp [rowLine]

theorem colLine_length (b : Board) (x : Nat) : (colLine b x).length = 8 := by
  simp [colLine]

theorem rowLine_get (b : Board) (y x : Nat) (hx : x < 8) :
    (rowLine b y)[x]? = some ((b y x).map Piece.color) := by
  unfold rowLine
  rw [List.getElem?_map, List.getElem?_range hx]
  rfl

theorem colLine_get (b : Board) (x y : Nat) (hy : y < 8) :
    (colLine b x)[y]? = some ((b y x).map Piece.color) := by
  unfold colLine
  rw [List.getElem?_map, List.getElem?_range hy]
  rfl

/-- Soundness of the horizontal segments: length at least 3, cells nodup, and
every cell is in bounds, occupied, and carries the segment's color. -/
theorem hSegments_sound (b : Board) (seg : Segment) (h : seg ∈ hSegments b) :
    3 ≤ seg.cells.length ∧ seg.cells.Nodup ∧
    ∀ c ∈ seg.cells, c.1 < 8 ∧ c.2 < 8 ∧
      (b c.2 c.1).map Piece.color = some seg.color := by
  unfold hSegments at h
  rw [List.mem_flatMap] at h
  obtain ⟨y, hy, h⟩ := h
  rw [List.mem_range] at hy
  rw [List.mem_map] at h
  obtain ⟨r, hr, rfl⟩ := h
  have hb := findRuns_bounds (rowLine b y) 0 none 0 (le_refl 0) r hr
  have h8 : r.1 + r.2.1 ≤ 8 := by
    have := hb.2.2
    rwa [rowLine_length, Nat.zero_add] at this
  have hsound := findRuns_sound (rowLine b y) 0 none 0 (rowLine b y)
    (by rw [List.drop_zero]) (le_refl 0) (by intro i h1 h2; omega) r hr
  refine ⟨by simpa using hb.2.1, ?_, ?_⟩
  · refine List.Nodup.map ?_ (List.nodup_range _)
    intro i j hij
    have := congrArg Prod.fst hij
    simp only [] at this
    omega
  · intro c hc
    rw [List.mem_map] at hc
    obtain ⟨i, hi, rfl⟩ := hc
    rw [List.mem_range] at hi
    have hx8 : r.1 + i < 8 := by omega
    have hcol := hsound (r.1 + i) (by omega) (by omega)
    rw [rowLine_get b y (r.1 + i) hx8] at hcol
    exact ⟨hx8, hy, Option.some.inj hcol⟩

/-- Soundness of the vertical segments. -/
theorem vSegments_sound (b : Board) (seg : Segment) (h : seg ∈ vSegments b) :
    3 ≤ seg.cells.length ∧ seg.cells.Nodup ∧
    ∀ c ∈ seg.cells, c.1 < 8 ∧ c.2 < 8 ∧
      (b c.2 c.1).map Piece.color = some seg.color := by
  unfold vSegments at h
  rw [List.mem_flatMap] at h
  obtain ⟨x, hx, h⟩ := h
  rw [List.mem_range] at hx
  rw [List.mem_map] at h
  obtain ⟨r, hr, rfl⟩ := h
  have hb := findRuns_bounds (colLine b x) 0 none 0 (le_refl 0) r hr
  have h8 : r.1 + r.2.1 ≤ 8 := by
    have := hb.2.2
    rwa [colLine_length, Nat.zero_add] at this
  have hsound := findRuns_sound (colLine b x) 0 none 0 (colLine b x)
    (by rw [List.drop_zero]) (le_refl 0) (by intro i h1 h2; omega) r hr
  refine ⟨by simpa using hb.2.1, ?_, ?_⟩
  · refine List.Nodup.map ?_ (List.nodup_range _)
    intro i j hij
    have := congrArg Prod.snd hij
    simp only [] at this
    omega
  · intro c hc
    rw [List.mem_map] at hc
    obtain ⟨i, hi, rfl⟩ := hc
    rw [List.mem_range] at hi
    have hy8 : r.1 + i < 8 := by omega
    have hcol := hsound (r.1 + i) (by omega) (by omega)
    rw [colLine_get b x (r.1 + i) hy8] at hcol
    exact ⟨hx, hy8, Option.some.inj hcol⟩

/-- Soundness of every detected segment. -/
theorem segments_sound (b : Board) (seg : Segment)
    (h : seg ∈ findMatchSegments b) :
    3 ≤ seg.cells.length ∧ seg.cells.Nodup ∧
    ∀ c ∈ seg.cells, c.1 < 8 ∧ c.2 < 8 ∧
      (b c.2 c.1).map Piece.color = some seg.color := by
  unfold findMatchSegments at h
  rw [List.mem_append] at h
  rcases h with h | h
  · exact hSegments_sound b seg h
  · exact vSegments_sound b seg h

/-- A flat map over lists with nodup values and pairwise-disjoint value lists
is nodup. -/
theorem nodup_flatMap_disjoint {α β : Type} (l : List α) (f : α → List β)
    (hn : ∀ a ∈ l, (f a).Nodup)
    (hd : l.Pairwise (fun a a' => ∀ x ∈ f a, x ∉ f a')) :
    (l.flatMap f).Nodup := by
  induction l with
  | nil => simp
  | cons a rest ih =>
    rw [List.flatMap_cons, List.nodup_append]
    rw [List.pairwise_cons] at hd
    refine ⟨hn a (List.mem_cons_self a rest),
      ih (fun a' ha' => hn a' (List.mem_cons_of_mem a ha')) hd.2, ?_⟩
    intro x hx hx'
    rw [List.mem_flatMap] at hx'
    obtain ⟨a', ha', hxa'⟩ := hx'
    exact hd.1 a' ha' x hx hxa'

/-- The cells of all horizontal segments, with no duplicates: segments of the
same row occupy disjoint column intervals and segments of different rows have
different row coordinates. -/
theorem hSegments_cells_nodup (b : Board) :
    ((hSegments b).flatMap Segment.cells).Nodup := by
  unfold hSegments
  rw [List.flatMap_assoc]
  apply nodup_flatMap_disjoint
  · intro y hy
    rw [List.flatMap_map]
    apply nodup_flatMap_disjoint
    · intro r hr
      refine List.Nodup.map ?_ (List.nodup_range _)
      intro i j hij
      have := congrArg Prod.fst hij
      simp only [] at this
      omega
    · have hpw := findRuns_pairwise (rowLine b y) 0 none 0 (le_refl 0)
      refine List.Pairwise.imp ?_ hpw
      intro r r' hord c hc hc'
      rw [List.mem_map] at hc hc'
      obtain ⟨i, hi, rfl⟩ := hc
      obtain ⟨j, hj, hji⟩ := hc'
      rw [List.mem_range] at hi hj
      have := congrArg Prod.fst hji
      simp only [] at this
      omega
  · refine List.Pairwise.imp ?_
      (List.Pairwise.imp (fun h => Nat.ne_of_lt h) (List.pairwise_lt_range 8))
    intro y y' hne x hx hx'
    rw [List.mem_flatMap] at hx hx'
    obtain ⟨s, hs, hxs⟩ := hx
    rw [List.mem_map] at hs
    obtain ⟨r, hr, rfl⟩ := hs
    simp only [] at hxs
    rw [List.mem_map] at hxs
    obtain ⟨i, hi, rfl⟩ := hxs
    obtain ⟨s', hs', hxs'⟩ := hx'
    rw [List.mem_map] at hs'
    obtain ⟨r', hr', rfl⟩ := hs'
    simp only [] at hxs'
    rw [List.mem_map] at hxs'
    obtain ⟨i', hi', hxeq⟩ := hxs'
    have hyy := congrArg Prod.snd hxeq
    simp only [] at hyy
    exact hne hyy.symm

/-- The cells of all vertical segments, with no duplicates. -/
theorem vSegments_cells_nodup (b : Board) :
    ((vSegments b).flatMap Segment.cells).Nodup := by
  unfold vSegments
  rw [List.flatMap_assoc]
  apply nodup_flatMap_disjoint
  · intro x hx
    rw [List.flatMap_map]
    apply nodup_flatMap_disjoint
    · intro r hr
      refine List.Nodup.map ?_ (List.nodup_range _)
      intro i j hij
      have := congrArg Prod.snd hij
      simp only [] at this
      omega
    · have hpw := findRuns_pairwise (colLine b x) 0 none 0 (le_refl 0)
      refine List.Pairwise.imp ?_ hpw
      intro r r' hord c hc hc'
      rw [List.mem_map] at hc hc'
      obtain ⟨i, hi, rfl⟩ := hc
      obtain ⟨j, hj, hji⟩ := hc'
      rw [List.mem_range] at hi hj
      have := congrArg Prod.snd hji
      simp only [] at this
      omega
  · refine List.Pairwise.imp ?_
      (List.Pairwise.imp (fun h => Nat.ne_of_lt h) (List.pairwise_lt_range 8))
    intro x x' hne c hc hc'
    rw [List.mem_flatMap] at hc hc'
    obtain ⟨s, hs, hcs⟩ := hc
    rw [List.mem_map] at hs
    obtain ⟨r, hr, rfl⟩ := hs
    simp only [] at hcs
    rw [List.mem_map] at hcs
    obtain ⟨i, hi, rfl⟩ := hcs
    obtain ⟨s', hs', hcs'⟩ := hc'
    rw [List.mem_map] at hs'
    obtain ⟨r', hr', rfl⟩ := hs'
    simp only [] at hcs'
    rw [List.mem_map] at hcs'
    obtain ⟨i', hi', hceq⟩ := hcs'
    have hxx := congrArg Prod.fst hceq
    simp only [] at hxx
    exact hne hxx.symm

/-- Lists of segments that are all at least 3 cells long contribute at least
three cells per segment. -/
theorem three_mul_length_le (l : List Segment)
    (h : ∀ s ∈ l, 3 ≤ s.cells.length) :
    3 * l.length ≤ (l.flatMap Segment.cells).length := by
  induction l with
  | nil => simp
  | cons a rest ih =>
    rw [List.flatMap_cons, List.length_append, List.length_cons]
    have h1 := ih (fun s hs => h s (List.mem_cons_of_mem a hs))
    have h2 := h a (List.mem_cons_self a rest)
    omega

theorem mset_length (m : CreationMap) (k : Nat × Nat) (v : Creation) :
    (mset m k v).length ≤ m.length + 1 := by
  unfold mset
  by_cases h : (m.lookup k).isSome
  · rw [if_pos h, List.length_map]
    omega
  · rw [if_neg h, List.length_append]
    simp

theorem creationStep_length (b : Board) (prefer : List (Nat × Nat))
    (out : CreationMap) (seg : Segment) :
    (creationStep b prefer out seg).length ≤ out.length + 1 := by
  unfold creationStep
  cases runCreation b prefer seg with
  | none =>
    simp only []
    omega
  | some kv =>
    obtain ⟨k, v⟩ := kv
    simp only []
    cases out.lookup k with
    | none => exact mset_length out k v
    | some ex =>
      simp only []
      by_cases hcond : ex.kind = Kind.rocket ∧ v.kind = Kind.bomb
      · rw [if_pos hcond]
        exact mset_length out k v
      · rw [if_neg hcond]
        omega

theorem computeSpecialCreations_length (b : Board) (segs : List Segment)
    (pref : Option ((Nat × Nat) × (Nat × Nat))) :
    (computeSpecialCreations b segs pref).length ≤ segs.length := by
  unfold computeSpecialCreations
  suffices h : ∀ (l : List Segment) (out : CreationMap),
      (l.foldl (creationStep b (preferOf pref)) out).length ≤
        out.length + l.length by
    simpa using h segs []
  intro l
  induction l with
  | nil => intro out; simp
  | cons a rest ih =>
    intro out
    rw [List.foldl_cons]
    have h1 := ih (creationStep b (preferOf pref) out a)
    have h2 := creationStep_length b (preferOf pref) out a
    simp only [List.length_cons]
    omega

/-- The counting argument: when runs were detected, some run cell is not a
special-creation target — distinct run cells outnumber the creation-map
entries (each orientation's cells are pairwise distinct and each run has at
least three of them, while the map has at most one entry per run). -/
theorem exists_unprotected_cell (b : Board)
    (pref : Option ((Nat × Nat) × (Nat × Nat)))
    (hne : findMatchSegments b ≠ []) :
    ∃ k, k ∈ (findMatchSegments b).flatMap Segment.cells ∧
      k ∉ protOf (passCreations b pref) := by
  have hsplit : (findMatchSegments b).flatMap Segment.cells =
      (hSegments b).flatMap Segment.cells ++ (vSegments b).flatMap Segment.cells := by
    unfold findMatchSegments
    rw [List.flatMap_append]
  have hUh : 3 * (hSegments b).length ≤
      ((findMatchSegments b).flatMap Segment.cells).toFinset.card := by
    have hsub : ((hSegments b).flatMap Segment.cells).toFinset ⊆
        ((findMatchSegments b).flatMap Segment.cells).toFinset := by
      intro a ha
      rw [List.mem_toFinset] at ha ⊢
      rw [hsplit, List.mem_append]
      exact Or.inl ha
    have hcard := Finset.card_le_card hsub
    rw [List.toFinset_card_of_nodup (hSegments_cells_nodup b)] at hcard
    have hlen := three_mul_length_le (hSegments b)
      (fun s hs => (hSegments_sound b s hs).1)
    omega
  have hUv : 3 * (vSegments b).length ≤
      ((findMatchSegments b).flatMap Segment.cells).toFinset.card := by
    have hsub : ((vSegments b).flatMap Segment.cells).toFinset ⊆
        ((findMatchSegments b).flatMap Segment.cells).toFinset := by
      intro a ha
      rw [List.mem_toFinset] at ha ⊢
      rw [hsplit, List.mem_append]
      exact Or.inr ha
    have hcard := Finset.card_le_card hsub
    rw [List.toFinset_card_of_nodup (vSegments_cells_nodup b)] at hcard
    have hlen := three_mul_length_le (vSegments b)
      (fun s hs => (vSegments_sound b s hs).1)
    omega
  have hprot : (protOf (passCreations b pref)).card ≤
      (hSegments b).length + (vSegments b).length := by
    have h1 : (protOf (passCreations b pref)).card ≤
        (passCreations b pref).length := by
      unfold protOf
      have := List.toFinset_card_le ((passCreations b pref).map Prod.fst)
      rwa [List.length_map] at this
    have h2 : (passCreations b pref).length ≤ (findMatchSegments b).length :=
      computeSpecialCreations_length b (findMatchSegments b) pref
    have h3 : (findMatchSegments b).length =
        (hSegments b).length + (vSegments b).length := by
      unfold findMatchSegments
      rw [List.length_append]
    omega
  have hpos : 1 ≤ (hSegments b).length + (vSegments b).length := by
    by_contra hno
    push_neg at hno
    apply hne
    unfold findMatchSegments
    have h1 : (hSegments b).length = 0 := by omega
    have h2 : (vSegments b).length = 0 := by omega
    rw [List.length_eq_zero] at h1 h2
    rw [h1, h2]
    rfl
  have hlt : (protOf (passCreations b pref)).card <
      ((findMatchSegments b).flatMap Segment.cells).toFinset.card := by
    omega
  have hnsub : ¬ ((findMatchSegments b).flatMap Segment.cells).toFinset ⊆
      protOf (passCreations b pref) := by
    intro hsub
    exact absurd (Finset.card_le_card hsub) (by omega)
  obtain ⟨k, hkU, hkP⟩ := Finset.not_subset.mp hnsub
  rw [List.mem_toFinset] at hkU
  exact ⟨k, hkU, hkP⟩

/-- The Clear Set of a pass that detected runs is never empty: an unprotected
run cell is occupied, in bounds, and survives into `willClear`. -/
theorem passWillClear_ne_empty (b : Board)
    (pref : Option ((Nat × Nat) × (Nat × Nat)))
    (hne : findMatchSegments b ≠ []) :
    passWillClear b pref ≠ ∅ := by
  obtain ⟨k, hkcells, hkprot⟩ := exists_unprotected_cell b pref hne
  have hinit : k ∈ initialClearKeys (findMatchSegments b)
      (protOf (passCreations b pref)) := by
    unfold initialClearKeys
    rw [Finset.mem_filter]
    exact ⟨List.mem_toFinset.mpr hkcells, hkprot⟩
  have hck : k ∈ passClearKeys b pref := subset_expand _ _ _ hinit
  rw [List.mem_flatMap] at hkcells
  obtain ⟨seg, hseg, hkc⟩ := hkcells
  obtain ⟨-, -, hcells⟩ := segments_sound b seg hseg
  obtain ⟨hx8, hy8, hcolor⟩ := hcells k hkc
  have hocc : (b k.2 k.1).isSome := by
    cases hb : b k.2 k.1 with
    | none => rw [hb] at hcolor; cases hcolor
    | some p => rfl
  intro hempty
  have hmem : k ∈ passWillClear b pref := by
    unfold passWillClear willClearOf
    rw [Finset.mem_filter]
    exact ⟨hck, hx8, hy8, hocc⟩
  rw [hempty] at hmem
  exact absurd hmem (Finset.not_mem_empty k)

/-- The loop body only breaks when no runs are on the board: the empty
`willClear` exit is unreachable by the counting argument. -/
theorem resolveStep_none (o : Oracle) (pass : Nat) (b : Board)
    (pref : Option ((Nat × Nat) × (Nat × Nat)))
    (h : resolveStep o pass b pref = none) :
    findMatchSegments b = [] := by
  by_cases hsegs : findMatchSegments b = []
  · exact hsegs
  · exfalso
    unfold resolveStep at h
    rw [if_neg hsegs] at h
    simp only [] at h
    by_cases hwc : passWillClear b pref = ∅
    · exact passWillClear_ne_empty b pref hsegs hwc
    · rw [if_neg hwc] at h
      cases h

/-- A finished resolution loop leaves a board with no runs. -/
theorem resolveLoop_no_runs (o : Oracle) :
    ∀ (fuel pass : Nat) (b : Board) (pref : Option ((Nat × Nat) × (Nat × Nat)))
      (b' : Board) (s : Nat),
      resolveLoop o fuel pass b pref = some (b', s) →
      findMatchSegments b' = [] := by
  intro fuel
  induction fuel with
  | zero => intro pass b pref b' s h; cases h
  | succ fuel ih =>
    intro pass b pref b' s h
    unfold resolveLoop at h
    cases hstep : resolveStep o pass b pref with
    | none =>
      rw [hstep] at h
      simp only [] at h
      have hb : b = b' := congrArg Prod.fst (Option.some.inj h)
      rw [← hb]
      exact resolveStep_none o pass b pref hstep
    | some r =>
      obtain ⟨b1, d⟩ := r
      rw [hstep] at h
      simp only [Option.map_eq_some'] at h
      obtain ⟨r', hr', heq⟩ := h
      have hb : r'.1 = b' := congrArg Prod.fst heq
      rw [← hb]
      exact ih (pass + 1) b1 none r'.1 r'.2 (by rw [hr'])

/-- A completed swap attempt either returns the original board or the output
of a finished resolution loop on the swapped board. -/
theorem attemptSwap_result (o : Oracle) (fuel : Nat) (busy : Bool) (b : Board)
    (origin target : Nat × Nat) (b' : Board) (s : Nat) (out : SwapOutcome)
    (h : attemptSwap o fuel busy b origin target = some (b', s, out)) :
    b' = b ∨ resolveLoop o fuel 0 (swapCells b origin target)
      (some (origin, target)) = some (b', s) := by
  unfold attemptSwap at h
  by_cases hbusy : busy = true
  · rw [if_pos hbusy] at h
    exact Or.inl (congrArg Prod.fst (Option.some.inj h)).symm
  · rw [if_neg hbusy] at h
    by_cases hb8 : ¬ (origin.1 < 8 ∧ origin.2 < 8 ∧ target.1 < 8 ∧ target.2 < 8)
    · rw [if_pos hb8] at h
      exact Or.inl (congrArg Prod.fst (Option.some.inj h)).symm
    · rw [if_neg hb8] at h
      by_cases hman : manhattan origin target ≠ 1
      · rw [if_pos hman] at h
        exact Or.inl (congrArg Prod.fst (Option.some.inj h)).symm
      · rw [if_neg hman] at h
        cases hporig : b origin.2 origin.1 with
        | none =>
          rw [hporig] at h
          simp only [] at h
          exact Or.inl (congrArg Prod.fst (Option.some.inj h)).symm
        | some pp =>
          rw [hporig] at h
          cases hptgt : b target.2 target.1 with
          | none =>
            rw [hptgt] at h
            simp only [] at h
            exact Or.inl (congrArg Prod.fst (Option.some.inj h)).symm
          | some qq =>
            rw [hptgt] at h
            simp only [] at h
            by_cases hnm : findMatchSegments (swapCells b origin target) = []
            · rw [if_pos hnm] at h
              left
              have hb : b' = swapCells (swapCells b origin target) origin target :=
                (congrArg Prod.fst (Option.some.inj h)).symm
              rw [hb, swapCells_involutive]
            · rw [if_neg hnm, Option.map_eq_some'] at h
              obtain ⟨r, hr, heq⟩ := h
              right
              have hb' : r.1 = b' := congrArg Prod.fst heq
              have hs : r.2 = s := congrArg Prod.fst (congrArg Prod.snd heq)
              rw [← hb', ← hs, hr]

/-- A completed activation either returns the original board or the output of
a finished resolution loop. -/
theorem detonateSpecial_result (o : Oracle) (fuel : Nat) (busy : Bool)
    (b : Board) (origin : Nat × Nat) (target : Option (Nat × Nat)) (b' : Board)
    (s : Nat) (h : detonateSpecial o fuel busy b origin target = some (b', s)) :
    b' = b ∨ ∃ b2 d, resolveLoop o fuel 1 b2 none = some (b', d) := by
  unfold detonateSpecial at h
  by_cases hbusy : busy = true
  · rw [if_pos hbusy] at h
    exact Or.inl (congrArg Prod.fst (Option.some.inj h)).symm
  · rw [if_neg hbusy] at h
    cases hop : b origin.2 origin.1 with
    | none =>
      rw [hop] at h
      simp only [] at h
      exact Or.inl (congrArg Prod.fst (Option.some.inj h)).symm
    | some pp =>
      rw [hop] at h
      simp only [] at h
      by_cases hkind : pp.kind = Kind.normal
      · rw [if_pos hkind] at h
        exact Or.inl (congrArg Prod.fst (Option.some.inj h)).symm
      · rw [if_neg hkind, Option.map_eq_some'] at h
        obtain ⟨r, hr, heq⟩ := h
        right
        refine ⟨collapseAndFillAnimated (freshPiece o 0)
          (detonateClearBoard b origin target), r.2, ?_⟩
        have hb' : r.1 = b' := congrArg Prod.fst heq
        rw [← hb']
        exact hr

/-! ## `makeBoard` produces no runs -/

/-- The fallback scan finds an allowed color whenever at most two of the six
colors are forbidden. -/
theorem firstAllowed_not_mem (forbid : List Nat) (c : Nat)
    (hlen : forbid.length ≤ 2) : firstAllowed forbid c ∉ forbid := by
  unfold firstAllowed
  cases hfind : (List.range 6).find? (fun k => decide (k ∉ forbid)) with
  | some k =>
    simp only [Option.getD]
    have := List.find?_some hfind
    simpa using this
  | none =>
    exfalso
    have hall := List.find?_eq_none.mp hfind
    have h0 : (0 : Nat) ∈ forbid := by
      have := hall 0 (by decide)
      simpa using this
    have h1 : (1 : Nat) ∈ forbid := by
      have := hall 1 (by decide)
      simpa using this
    have h2 : (2 : Nat) ∈ forbid := by
      have := hall 2 (by decide)
      simpa using this
    match forbid, hlen with
    | [], _ => cases h0
    | [a], _ =>
      rw [List.mem_singleton] at h0 h1
      omega
    | [a, b], _ =>
      simp only [List.mem_cons, List.mem_singleton, List.not_mem_nil,
        or_false] at h0 h1 h2
      omega

/-- The color chosen for a `makeBoard` cell is never a forbidden one, as long
as at most two colors are forbidden. -/
theorem pickColor_not_mem (forbid : List Nat) (r : Nat → Nat)
    (hlen : forbid.length ≤ 2) : pickColor forbid r ∉ forbid := by
  unfold pickColor
  by_cases hemp : forbid.isEmpty
  · rw [if_pos hemp]
    rw [List.isEmpty_iff] at hemp
    rw [hemp]
    exact List.not_mem_nil _
  · rw [if_neg hemp]
    simp only []
    by_cases hc : pickColorRetry forbid r 12 1 (r 0 % 6) ∈ forbid
    · rw [if_pos hc]
      exact firstAllowed_not_mem forbid _ hlen
    · rw [if_neg hc]
      exact hc

/-- The forbidden list of a `makeBoard` cell holds at most two colors. -/
theorem forbidFor_length (acc : List Piece) (rows : List (List Piece))
    (y x : Nat) : (forbidFor acc rows y x).length ≤ 2 := by
  unfold forbidFor
  rw [List.length_append]
  have h1 : (if 2 ≤ x then
      match acc[x - 1]?, acc[x - 2]? with
      | some p1, some p2 => if p1.color = p2.color then [p1.color] else []
      | _, _ => []
    else ([] : List Nat)).length ≤ 1 := by
    split
    · split
      · split <;> simp
      · simp
    · simp
  have h2 : (if 2 ≤ y then
      match (rows[y - 1]?).bind (fun r => r[x]?),
            (rows[y - 2]?).bind (fun r => r[x]?) with
      | some p1, some p2 => if p1.color = p2.color then [p1.color] else []
      | _, _ => []
    else ([] : List Nat)).length ≤ 1 := by
    split
    · split
      · split <;> simp
      · simp
    · simp
  omega

/-- When the two cells to the left agree in color, that color is forbidden. -/
theorem forbidFor_mem_left (acc : List Piece) (rows : List (List Piece))
    (y x : Nat) (p1 p2 : Piece) (hx : 2 ≤ x) (h1 : acc[x - 1]? = some p1)
    (h2 : acc[x - 2]? = some p2) (hc : p1.color = p2.color) :
    p1.color ∈ forbidFor acc rows y x := by
  unfold forbidFor
  rw [List.mem_append]
  left
  rw [if_pos hx, h1, h2]
  simp only []
  rw [if_pos hc]
  exact List.mem_singleton.mpr rfl

/-- When the two cells above agree in color, that color is forbidden. -/
theorem forbidFor_mem_up (acc : List Piece) (rows : List (List Piece))
    (y x : Nat) (p1 p2 : Piece) (hy : 2 ≤ y)
    (h1 : (rows[y - 1]?).bind (fun r => r[x]?) = some p1)
    (h2 : (rows[y - 2]?).bind (fun r => r[x]?) = some p2)
    (hc : p1.color = p2.color) : p1.color ∈ forbidFor acc rows y x := by
  unfold forbidFor
  rw [List.mem_append]
  right
  rw [if_pos hy, h1, h2]
  simp only []
  rw [if_pos hc]
  exact List.mem_singleton.mpr rfl

theorem makeRow_length (rand : Nat → Nat → Nat → Nat)
    (rows : List (List Piece)) (y : Nat) :
    ∀ n acc, (makeRow rand rows y n acc).length = acc.length + n := by
  intro n
  induction n with
  | zero => intro acc; rfl
  | succ n ih =>
    intro acc
    unfold makeRow
    rw [ih, List.length_append]
    simp only [List.length_cons, List.length_nil]
    omega

/-- Cells already produced by `makeRow` never change. -/
theorem makeRow_prefix (rand : Nat → Nat → Nat → Nat)
    (rows : List (List Piece)) (y : Nat) :
    ∀ n acc i, i < acc.length → (makeRow rand rows y n acc)[i]? = acc[i]? := by
  intro n
  induction n with
  | zero => intro acc i _; rfl
  | succ n ih =>
    intro acc i hi
    unfold makeRow
    rw [ih _ i (by rw [List.length_append]; simp only [List.length_cons,
      List.length_nil]; omega)]
    exact List.getElem?_append_left hi

/-- A row is free of a 3-in-a-row, horizontally against itself and vertically
against the two rows above it in `rows`. -/
def rowGood (rows : List (List Piece)) (y : Nat) (l : List Piece) : Prop :=
  (∀ (x : Nat) (p0 p1 p2 : Piece),
    l[x + 2]? = some p0 → l[x + 1]? = some p1 → l[x]? = some p2 →
    ¬(p0.color = p1.color ∧ p1.color = p2.color)) ∧
  (∀ (x : Nat) (p0 p1 p2 : Piece), l[x]? = some p0 →
    (rows[y - 1]?).bind (fun r => r[x]?) = some p1 →
    (rows[y - 2]?).bind (fun r => r[x]?) = some p2 → 2 ≤ y →
    ¬(p0.color = p1.color ∧ p1.color = p2.color))

/-- `makeRow` preserves row goodness: the forbidden-color mechanism blocks any
new 3-in-a-row at the appended cell. -/
theorem makeRow_good (rand : Nat → Nat → Nat → Nat)
    (rows : List (List Piece)) (y : Nat) :
    ∀ n acc, rowGood rows y acc → rowGood rows y (makeRow rand rows y n acc) := by
  intro n
  induction n with
  | zero => intro acc h; exact h
  | succ n ih =>
    intro acc h
    unfold makeRow
    apply ih
    set cell : Piece := ⟨y * 8 + acc.length + 1,
      pickColor (forbidFor acc rows y acc.length) (rand y acc.length),
      Kind.normal⟩ with hcell
    have hnotmem : cell.color ∉ forbidFor acc rows y acc.length :=
      pickColor_not_mem _ _ (forbidFor_length acc rows y acc.length)
    unfold rowGood
    constructor
    · intro x p0 p1 p2 h0 h1 h2 hcc
      have hlt : x + 2 < acc.length + 1 := by
        by_contra hge
        rw [List.getElem?_eq_none (by
          rw [List.length_append]
          simp only [List.length_cons, List.length_nil]
          omega)] at h0
        cases h0
      by_cases hend : x + 2 = acc.length
      · have h0' : cell = p0 := by
          have := List.getElem?_concat_length acc cell
          rw [← hend] at this
          rw [this] at h0
          exact Option.some.inj h0
        have h1' : acc[x + 1]? = some p1 := by
          rw [← h1, List.getElem?_append_left (by omega)]
        have h2' : acc[x]? = some p2 := by
          rw [← h2, List.getElem?_append_left (by omega)]
        have hmem : p1.color ∈ forbidFor acc rows y acc.length := by
          refine forbidFor_mem_left acc rows y acc.length p1 p2 (by omega) ?_ ?_
            hcc.2
          · rw [← hend]
            simpa using h1'
          · rw [← hend]
            simpa using h2'
        rw [h0', hcc.1] at hnotmem
        exact hnotmem hmem
      · have hin : x + 2 < acc.length := by omega
        exact h.1 x p0 p1 p2
          (by rw [← h0, List.getElem?_append_left hin])
          (by rw [← h1, List.getElem?_append_left (by omega)])
          (by rw [← h2, List.getElem?_append_left (by omega)]) hcc
    · intro x p0 p1 p2 h0 hu1 hu2 hy2 hcc
      have hlt : x < acc.length + 1 := by
        by_contra hge
        rw [List.getElem?_eq_none (by
          rw [List.length_append]
          simp only [List.length_cons, List.length_nil]
          omega)] at h0
        cases h0
      by_cases hend : x = acc.length
      · have h0' : cell = p0 := by
          have := List.getElem?_concat_length acc cell
          rw [← hend] at this
          rw [this] at h0
          exact Option.some.inj h0
        have hmem : p1.color ∈ forbidFor acc rows y acc.length := by
          refine forbidFor_mem_up acc rows y acc.length p1 p2 hy2 ?_ ?_ hcc.2
          · rw [← hend]; exact hu1
          · rw [← hend]; exact hu2
        rw [h0', hcc.1] at hnotmem
        exact hnotmem hmem
      · exact h.2 x p0 p1 p2
          (by rw [← h0, List.getElem?_append_left (by omega)]) hu1 hu2 hy2 hcc

theorem makeBoardRows_length (rand : Nat → Nat → Nat → Nat) :
    ∀ n acc, (makeBoardRows rand n acc).length = acc.length + n := by
  intro n
  induction n with
  | zero => intro acc; rfl
  | succ n ih =>
    intro acc
    unfold makeBoardRows
    rw [ih, List.length_append]
    simp only [List.length_cons, List.length_nil]
    omega

/-- Rows already produced by `makeBoardRows` never change. -/
theorem makeBoardRows_prefix (rand : Nat → Nat → Nat → Nat) :
    ∀ n acc i, i < acc.length →
      (makeBoardRows rand n acc)[i]? = acc[i]? := by
  intro n
  induction n with
  | zero => intro acc i _; rfl
  | succ n ih =>
    intro acc i hi
    unfold makeBoardRows
    rw [ih _ i (by rw [List.length_append]; simp only [List.length_cons,
      List.length_nil]; omega)]
    exact List.getElem?_append_left hi

/-- Goodness of a row only reads the rows above it, so it survives appending
rows below. -/
theorem rowGood_extend (rows rows' : List (List Piece)) (y : Nat)
    (l : List Piece) (hy : y ≤ rows.length) (h : rowGood rows y l) :
    rowGood (rows ++ rows') y l := by
  obtain ⟨hh, hv⟩ := h
  refine ⟨hh, ?_⟩
  intro x p0 p1 p2 h0 hu1 hu2 hy2
  refine hv x p0 p1 p2 h0 ?_ ?_ hy2
  · rwa [List.getElem?_append_left (by omega)] at hu1
  · rwa [List.getElem?_append_left (by omega)] at hu2

/-- The empty row is good. -/
theorem rowGood_nil (rows : List (List Piece)) (y : Nat) :
    rowGood rows y [] := by
  constructor
  · intro x p0 p1 p2 h0
    rw [List.getElem?_nil] at h0
    cases h0
  · intro x p0 p1 p2 h0
    rw [List.getElem?_nil] at h0
    cases h0

/-- Every row of the generated board is good with respect to the full row
list. -/
theorem makeBoardRows_good (rand : Nat → Nat → Nat → Nat) :
    ∀ n acc, (∀ y l, acc[y]? = some l → rowGood acc y l ∧ y < acc.length) →
      ∀ y l, (makeBoardRows rand n acc)[y]? = some l →
        rowGood (makeBoardRows rand n acc) y l ∧
          y < (makeBoardRows rand n acc).length := by
  intro n
  induction n with
  | zero => intro acc h; exact h
  | succ n ih =>
    intro acc h
    unfold makeBoardRows
    apply ih
    intro y l hy
    have hlen : (acc ++ [makeRow rand acc acc.length 8 []]).length =
        acc.length + 1 := by
      rw [List.length_append]
      simp only [List.length_cons, List.length_nil]
    have hylt : y < acc.length + 1 := by
      by_contra hge
      rw [List.getElem?_eq_none (by omega)] at hy
      cases hy
    by_cases hend : y = acc.length
    · subst hend
      have hl : makeRow rand acc acc.length 8 [] = l := by
        have := List.getElem?_concat_length acc (makeRow rand acc acc.length 8 [])
        rw [this] at hy
        exact Option.some.inj hy
      refine ⟨?_, by omega⟩
      rw [← hl]
      exact rowGood_extend acc _ acc.length _ (le_refl _)
        (makeRow_good rand acc acc.length 8 [] (rowGood_nil acc acc.length))
    · have hin : y < acc.length := by omega
      rw [List.getElem?_append_left hin] at hy
      obtain ⟨hg, _⟩ := h y l hy
      exact ⟨rowGood_extend acc _ y l (by omega) hg, by omega⟩

/-- No horizontal 3-in-a-row on a fresh board. -/
theorem makeBoard_noH (rand : Nat → Nat → Nat → Nat) (x y : Nat)
    (p0 p1 p2 : Piece) (h0 : makeBoard rand y x = some p0)
    (h1 : makeBoard rand y (x + 1) = some p1)
    (h2 : makeBoard rand y (x + 2) = some p2) :
    ¬(p0.color = p1.color ∧ p1.color = p2.color) := by
  intro hcc
  unfold makeBoard at h0 h1 h2
  cases hrow : (makeBoardRows rand 8 [])[y]? with
  | none => rw [hrow] at h0; cases h0
  | some l =>
    rw [hrow] at h0 h1 h2
    simp only [Option.some_bind] at h0 h1 h2
    have hg := (makeBoardRows_good rand 8 []
      (by intro y' l' hy'; rw [List.getElem?_nil] at hy'; cases hy')
      y l hrow).1
    exact hg.1 x p2 p1 p0 h2 h1 h0 ⟨hcc.2.symm, hcc.1.symm⟩

/-- No vertical 3-in-a-row on a fresh board. -/
theorem makeBoard_noV (rand : Nat → Nat → Nat → Nat) (x y : Nat)
    (p0 p1 p2 : Piece) (h0 : makeBoard rand y x = some p0)
    (h1 : makeBoard rand (y + 1) x = some p1)
    (h2 : makeBoard rand (y + 2) x = some p2) :
    ¬(p0.color = p1.color ∧ p1.color = p2.color) := by
  intro hcc
  unfold makeBoard at h0 h1 h2
  cases hrow : (makeBoardRows rand 8 [])[y + 2]? with
  | none => rw [hrow] at h2; cases h2
  | some l =>
    rw [hrow] at h2
    simp only [Option.some_bind] at h2
    have hg := (makeBoardRows_good rand 8 []
      (by intro y' l' hy'; rw [List.getElem?_nil] at hy'; cases hy')
      (y + 2) l hrow).1
    refine hg.2 x p2 p1 p0 h2 ?_ ?_ (by omega) ⟨hcc.2.symm, hcc.1.symm⟩
    · have : y + 2 - 1 = y + 1 := by omega
      rw [this]
      exact h1
    · have : y + 2 - 2 = y := by omega
      rw [this]
      exact h0

/-- Any detected horizontal segment exhibits three consecutive same-colored
pieces in a row. -/
theorem hSegments_three (b : Board) (seg : Segment) (h : seg ∈ hSegments b) :
    ∃ x y p0 p1 p2, b y x = some p0 ∧ b y (x + 1) = some p1 ∧
      b y (x + 2) = some p2 ∧ p0.color = p1.color ∧ p1.color = p2.color := by
  unfold hSegments at h
  rw [List.mem_flatMap] at h
  obtain ⟨y, hy, h⟩ := h
  rw [List.mem_range] at hy
  rw [List.mem_map] at h
  obtain ⟨r, hr, rfl⟩ := h
  have hb := findRuns_bounds (rowLine b y) 0 none 0 (le_refl 0) r hr
  have h8 : r.1 + r.2.1 ≤ 8 := by
    have := hb.2.2
    rwa [rowLine_length, Nat.zero_add] at this
  have h3 : 3 ≤ r.2.1 := hb.2.1
  have hsound := findRuns_sound (rowLine b y) 0 none 0 (rowLine b y)
    (by rw [List.drop_zero]) (le_refl 0) (by intro i h1 h2; omega) r hr
  have hc0 := hsound r.1 (by omega) (by omega)
  have hc1 := hsound (r.1 + 1) (by omega) (by omega)
  have hc2 := hsound (r.1 + 2) (by omega) (by omega)
  rw [rowLine_get b y r.1 (by omega)] at hc0
  rw [rowLine_get b y (r.1 + 1) (by omega)] at hc1
  rw [rowLine_get b y (r.1 + 2) (by omega)] at hc2
  have hc0' := Option.some.inj hc0
  have hc1' := Option.some.inj hc1
  have hc2' := Option.some.inj hc2
  cases hb0 : b y r.1 with
  | none => rw [hb0] at hc0'; cases hc0'
  | some p0 =>
    cases hb1 : b y (r.1 + 1) with
    | none => rw [hb1] at hc1'; cases hc1'
    | some p1 =>
      cases hb2 : b y (r.1 + 2) with
      | none => rw [hb2] at hc2'; cases hc2'
      | some p2 =>
        rw [hb0] at hc0'
        rw [hb1] at hc1'
        rw [hb2] at hc2'
        simp only [Option.map_some'] at hc0' hc1' hc2'
        refine ⟨r.1, y, p0, p1, p2, hb0, hb1, hb2, ?_, ?_⟩
        · rw [Option.some.inj hc0', Option.some.inj hc1']
        · rw [Option.some.inj hc1', Option.some.inj hc2']

/-- Any detected vertical segment exhibits three consecutive same-colored
pieces in a column. -/
theorem vSegments_three (b : Board) (seg : Segment) (h : seg ∈ vSegments b) :
    ∃ x y p0 p1 p2, b y x = some p0 ∧ b (y + 1) x = some p1 ∧
      b (y + 2) x = some p2 ∧ p0.color = p1.color ∧ p1.color = p2.color := by
  unfold vSegments at h
  rw [List.mem_flatMap] at h
  obtain ⟨x, hx, h⟩ := h
  rw [List.mem_range] at hx
  rw [List.mem_map] at h
  obtain ⟨r, hr, rfl⟩ := h
  have hb := findRuns_bounds (colLine b x) 0 none 0 (le_refl 0) r hr
  have h8 : r.1 + r.2.1 ≤ 8 := by
    have := hb.2.2
    rwa [colLine_length, Nat.zero_add] at this
  have h3 : 3 ≤ r.2.1 := hb.2.1
  have hsound := findRuns_sound (colLine b x) 0 none 0 (colLine b x)
    (by rw [List.drop_zero]) (le_refl 0) (by intro i h1 h2; omega) r hr
  have hc0 := hsound r.1 (by omega) (by omega)
  have hc1 := hsound (r.1 + 1) (by omega) (by omega)
  have hc2 := hsound (r.1 + 2) (by omega) (by omega)
  rw [colLine_get b x r.1 (by omega)] at hc0
  rw [colLine_get b x (r.1 + 1) (by omega)] at hc1
  rw [colLine_get b x (r.1 + 2) (by omega)] at hc2
  have hc0' := Option.some.inj hc0
  have hc1' := Option.some.inj hc1
  have hc2' := Option.some.inj hc2
  cases hb0 : b r.1 x with
  | none => rw [hb0] at hc0'; cases hc0'
  | some p0 =>
    cases hb1 : b (r.1 + 1) x with
    | none => rw [hb1] at hc1'; cases hc1'
    | some p1 =>
      cases hb2 : b (r.1 + 2) x with
      | none => rw [hb2] at hc2'; cases hc2'
      | some p2 =>
        rw [hb0] at hc0'
        rw [hb1] at hc1'
        rw [hb2] at hc2'
        simp only [Option.map_some'] at hc0' hc1' hc2'
        refine ⟨x, r.1, p0, p1, p2, hb0, hb1, hb2, ?_, ?_⟩
        · rw [Option.some.inj hc0', Option.some.inj hc1']
        · rw [Option.some.inj hc1', Option.some.inj hc2']

/-- A fresh board carries no runs at all. -/
theorem makeBoard_no_segments (rand : Nat → Nat → Nat → Nat) :
    findMatchSegments (makeBoard rand) = [] := by
  rw [List.eq_nil_iff_forall_not_mem]
  intro seg hseg
  unfold findMatchSegments at hseg
  rw [List.mem_append] at hseg
  rcases hseg with h | h
  · obtain ⟨x, y, p0, p1, p2, hb0, hb1, hb2, hc1, hc2⟩ :=
      hSegments_three _ seg h
    exact makeBoard_noH rand x y p0 p1 p2 hb0 hb1 hb2 ⟨hc1, hc2⟩
  · obtain ⟨x, y, p0, p1, p2, hb0, hb1, hb2, hc1, hc2⟩ :=
      vSegments_three _ seg h
    exact makeBoard_noV rand x y p0 p1 p2 hb0 hb1 hb2 ⟨hc1, hc2⟩

/-- C1: every resting board the engine can reach — the fresh board, or the
committed result of any completed swap or special activation — contains no
3-in-a-row run: `findMatchSegments` returns the empty list on it. -/
theorem C1_resting_boards_run_free (b : Board) (h : RestingReachable b) :
    findMatchSegments b = [] := by
  induction h with
  | init rand => exact makeBoard_no_segments rand
  | swap o fuel busy b0 origin target b' s out _ hsw ih =>
    rcases attemptSwap_result o fuel busy b0 origin target b' s out hsw with
      he | hl
    · rw [he]; exact ih
    · exact resolveLoop_no_runs o fuel 0 _ _ b' s hl
  | detonate o fuel busy b0 origin target b' s _ hdet ih =>
    rcases detonateSpecial_result o fuel busy b0 origin target b' s hdet with
      he | ⟨b2, d, hl⟩
    · rw [he]; exact ih
    · exact resolveLoop_no_runs o fuel 1 b2 none b' d hl

/-- C1 witness: the fresh board of the constant-zero random source is a
reachable resting board and is run-free. -/
theorem C1_witness :
    findMatchSegments (makeBoard (fun _ _ _ => 0)) = [] :=
  C1_resting_boards_run_free (makeBoard (fun _ _ _ => 0))
    (RestingReachable.init (fun _ _ _ => 0))

/-! ## Non-termination of the resolution loop (claim C2) -/

/-- A board is full of color-0 pieces everywhere in bounds. -/
def monoFull (b : Board) : Prop :=
  ∀ y x : Fin 8, (b y.val x.val).map Piece.color = some 0

instance (b : Board) : Decidable (monoFull b) := by
  unfold monoFull; infer_instance

/-- Every occupied in-bounds cell has color 0. -/
def monoOcc (b : Board) : Prop :=
  ∀ y x p, y < 8 → x < 8 → b y x = some p → p.color = 0

theorem monoFull_monoOcc (b : Board) (h : monoFull b) : monoOcc b := by
  intro y x p hy hx hp
  have := h ⟨y, hy⟩ ⟨x, hx⟩
  rw [hp] at this
  exact Option.some.inj this

theorem mono_rowLine (b : Board) (hm : monoFull b) :
    rowLine b 0 = List.replicate 8 (some 0) := by
  unfold rowLine
  have hall : ∀ x ∈ List.range 8,
      (b 0 x).map Piece.color = (fun _ => (some 0 : Option Nat)) x := by
    intro x hx
    rw [List.mem_range] at hx
    exact hm ⟨0, by omega⟩ ⟨x, hx⟩
  rw [List.map_congr_left hall]
  decide

/-- A monochromatic full board always carries a run. -/
theorem mono_segments_ne (b : Board) (hm : monoFull b) :
    findMatchSegments b ≠ [] := by
  intro hnil
  have hseg : (⟨(List.range 8).map (fun i => (0 + i, 0)), 0, true⟩ : Segment)
      ∈ hSegments b := by
    unfold hSegments
    rw [List.mem_flatMap]
    refine ⟨0, by decide, ?_⟩
    rw [List.mem_map]
    refine ⟨(0, 8, 0), ?_, rfl⟩
    rw [mono_rowLine b hm]
    decide
  have hmem : (⟨(List.range 8).map (fun i => (0 + i, 0)), 0, true⟩ : Segment)
      ∈ findMatchSegments b := by
    unfold findMatchSegments
    rw [List.mem_append]
    exact Or.inl hseg
  rw [hnil] at hmem
  cases hmem

/-- Members of the creation map after a `Map.set`. -/
theorem mem_mset (m : CreationMap) (k : Nat × Nat) (v : Creation)
    (p : (Nat × Nat) × Creation) (h : p ∈ mset m k v) :
    p ∈ m ∨ p = (k, v) := by
  unfold mset at h
  by_cases hs : (m.lookup k).isSome
  · rw [if_pos hs] at h
    rw [List.mem_map] at h
    obtain ⟨q, hq, hqe⟩ := h
    by_cases hqk : q.1 = k
    · rw [if_pos hqk] at hqe
      exact Or.inr hqe.symm
    · rw [if_neg hqk] at hqe
      exact Or.inl (hqe ▸ hq)
  · rw [if_neg hs] at h
    rw [List.mem_append] at h
    rcases h with h | h
    · exact Or.inl h
    · rw [List.mem_singleton] at h
      exact Or.inr h

/-- Members of the creation map after one planner step. -/
theorem creationStep_mem (b : Board) (prefer : List (Nat × Nat))
    (out : CreationMap) (seg : Segment) (p : (Nat × Nat) × Creation)
    (h : p ∈ creationStep b prefer out seg) :
    p ∈ out ∨ ∃ k v, runCreation b prefer seg = some (k, v) ∧ p = (k, v) := by
  unfold creationStep at h
  cases hrc : runCreation b prefer seg with
  | none => rw [hrc] at h; exact Or.inl h
  | some kv =>
    obtain ⟨k, v⟩ := kv
    rw [hrc] at h
    simp only [] at h
    cases hlk : out.lookup k with
    | none =>
      rw [hlk] at h
      simp only [] at h
      rcases mem_mset out k v p h with hm | he
      · exact Or.inl hm
      · exact Or.inr ⟨k, v, rfl, he⟩
    | some ex =>
      rw [hlk] at h
      simp only [] at h
      by_cases hek : ex.kind = Kind.rocket ∧ v.kind = Kind.bomb
      · rw [if_pos hek] at h
        rcases mem_mset out k v p h with hm | he
        · exact Or.inl hm
        · exact Or.inr ⟨k, v, rfl, he⟩
      · rw [if_neg hek] at h
        exact Or.inl h

/-- Every member of the planner's map comes from some segment's creation. -/
theorem creations_fold_mem (b : Board) (prefer : List (Nat × Nat)) :
    ∀ (segs : List Segment) (out : CreationMap) (p : (Nat × Nat) × Creation),
      p ∈ segs.foldl (creationStep b prefer) out →
      p ∈ out ∨ ∃ seg ∈ segs, ∃ k v,
        runCreation b prefer seg = some (k, v) ∧ p = (k, v) := by
  intro segs
  induction segs with
  | nil => intro out p h; exact Or.inl h
  | cons s rest ih =>
    intro out p h
    rw [List.foldl_cons] at h
    rcases ih (creationStep b prefer out s) p h with
      hm | ⟨seg, hseg, k, v, hrc, he⟩
    · rcases creationStep_mem b prefer out s p hm with h1 | ⟨k, v, hrc, he⟩
      · exact Or.inl h1
      · exact Or.inr ⟨s, List.mem_cons_self s rest, k, v, hrc, he⟩
    · exact Or.inr ⟨seg, List.mem_cons_of_mem s hseg, k, v, hrc, he⟩

/-- A creation record carries its segment's color. -/
theorem runCreation_color (b : Board) (prefer : List (Nat × Nat))
    (seg : Segment) (k : Nat × Nat) (v : Creation)
    (h : runCreation b prefer seg = some (k, v)) : v.color = seg.color := by
  unfold runCreation at h
  by_cases hlen : seg.cells.length < 4
  · rw [if_pos hlen] at h
    cases h
  · rw [if_neg hlen] at h
    cases hct : chooseTarget b prefer seg with
    | none =>
      rw [hct] at h
      simp only [] at h
      cases h
    | some t =>
      rw [hct] at h
      simp only [] at h
      have h2 := Option.some.inj h
      have h3 : (⟨t.1, t.2,
          if 5 ≤ seg.cells.length then Kind.bomb else Kind.rocket,
          seg.color⟩ : Creation) = v := congrArg Prod.snd h2
      rw [← h3]

/-- On a monochromatic board every detected segment has color 0. -/
theorem mono_seg_color (b : Board) (hm : monoFull b) (seg : Segment)
    (h : seg ∈ findMatchSegments b) : seg.color = 0 := by
  obtain ⟨h3, _, hcells⟩ := segments_sound b seg h
  obtain ⟨c, hc⟩ := List.exists_mem_of_length_pos (by omega :
    0 < seg.cells.length)
  obtain ⟨hx, hy, hcol⟩ := hcells c hc
  have hmono := hm ⟨c.2, hy⟩ ⟨c.1, hx⟩
  rw [hmono] at hcol
  exact (Option.some.inj hcol).symm

/-- Applying color-0 creations preserves the occupied-cells-color-0 invariant. -/
theorem applyCreations_mono (o : Oracle) (pass : Nat) :
    ∀ (m : CreationMap) (b1 : Board), monoOcc b1 →
      (∀ kv ∈ m, kv.2.color = 0) → monoOcc (applyCreations o pass m b1) := by
  intro m
  induction m with
  | nil => intro b1 h _; exact h
  | cons kv rest ih =>
    intro b1 h hall
    unfold applyCreations
    rw [List.foldl_cons]
    refine ih _ ?_ (fun q hq => hall q (List.mem_cons_of_mem kv hq))
    by_cases hb : kv.2.x < 8 ∧ kv.2.y < 8
    · rw [if_pos hb]
      intro y x p hy hx hp
      simp only [] at hp
      by_cases hyx : y = kv.2.y ∧ x = kv.2.x
      · rw [if_pos hyx] at hp
        have hpe := Option.some.inj hp
        rw [← hpe]
        exact hall kv (List.mem_cons_self kv rest)
      · rw [if_neg hyx] at hp
        exact h y x p hy hx hp
    · rw [if_neg hb]
      exact h

theorem colPieces_mem (b : Board) (x : Nat) (p : Piece)
    (h : p ∈ colPieces b x) : ∃ y, y < 8 ∧ b y x = some p := by
  unfold colPieces at h
  rw [List.mem_filterMap] at h
  obtain ⟨y, hy, hb⟩ := h
  rw [List.mem_reverse, List.mem_range] at hy
  exact ⟨y, hy, hb⟩

/-- With the all-zero refill oracle, collapsing a color-0 board yields a
monochromatic full board again. -/
theorem collapse_monoFull (pass : Nat) (b2 : Board) (h : monoOcc b2) :
    monoFull (collapseAndFillAnimated (freshPiece zeroOracle pass) b2) := by
  intro y x
  unfold collapseAndFillAnimated
  rw [if_pos ⟨x.isLt, y.isLt⟩]
  cases hcp : (colPieces b2 x.val)[7 - y.val]? with
  | none =>
    simp only []
    rfl
  | some p =>
    simp only [Option.map_some']
    obtain ⟨yy, hyy, hb⟩ :=
      colPieces_mem b2 x.val p (List.getElem?_mem hcp)
    rw [h yy x.val p hyy x.isLt hb]

/-- A monochromatic full board never breaks out of the loop body, and the
pass output is monochromatic full again. -/
theorem resolveStep_mono (pass : Nat) (b : Board)
    (pref : Option ((Nat × Nat) × (Nat × Nat))) (hm : monoFull b) :
    ∃ b', (∃ d, resolveStep zeroOracle pass b pref = some (b', d)) ∧
      monoFull b' := by
  have hne := mono_segments_ne b hm
  have hwc := passWillClear_ne_empty b pref hne
  refine ⟨collapseAndFillAnimated (freshPiece zeroOracle pass)
      (applyCreations zeroOracle pass (passCreations b pref)
        (clearBoard b (passWillClear b pref))),
    ⟨(passWillClear b pref).card, ?_⟩, ?_⟩
  · unfold resolveStep
    rw [if_neg hne]
    simp only []
    rw [if_neg hwc]
  · apply collapse_monoFull
    apply applyCreations_mono
    · intro y x p hy hx hp
      unfold clearBoard at hp
      by_cases hin : (x, y) ∈ passWillClear b pref
      · rw [if_pos hin] at hp
        cases hp
      · rw [if_neg hin] at hp
        have hmono := hm ⟨y, hy⟩ ⟨x, hx⟩
        rw [hp] at hmono
        exact Option.some.inj hmono
    · intro kv hkv
      rcases creations_fold_mem b (preferOf pref) (findMatchSegments b) []
          kv hkv with hnil | ⟨seg, hseg, k, v, hrc, he⟩
      · cases hnil
      · have hc := runCreation_color b (preferOf pref) seg k v hrc
        have hs0 := mono_seg_color b hm seg hseg
        rw [he]
        show v.color = 0
        rw [hc, hs0]

/-- The loop never returns on a monochromatic board under the all-zero
oracle, whatever the fuel. -/
theorem resolveLoop_mono_none :
    ∀ (fuel pass : Nat) (b : Board)
      (pref : Option ((Nat × Nat) × (Nat × Nat))),
      monoFull b → resolveLoop zeroOracle fuel pass b pref = none := by
  intro fuel
  induction fuel with
  | zero => intro pass b pref _; rfl
  | succ fuel ih =>
    intro pass b pref hm
    obtain ⟨b', ⟨d, hstep⟩, hm'⟩ := resolveStep_mono pass b pref hm
    unfold resolveLoop
    rw [hstep]
    simp only []
    rw [ih (pass + 1) b' none hm']
    rfl

/-- C2 counterexample: the cascade-resolution loop does not terminate on every
board — on an all-one-color full board, with a refill source that keeps
producing that color, no amount of fuel makes the loop return. -/
theorem C2_counterexample :
    ¬ ∃ n, (resolveLoop zeroOracle n 0 monoBoard none).isSome := by
  rintro ⟨n, hn⟩
  rw [resolveLoop_mono_none n 0 monoBoard none (by decide)] at hn
  cases hn

/-- C2 (amended): each committed pass of the resolution loop does clear at
least one cell — the clear-and-collapse step only proceeds on a non-empty
deduplicated clear set — but this alone does not bound the loop, since the
refill can recreate runs forever. -/
theorem C2_pass_clears_at_least_one (o : Oracle) (pass : Nat) (b : Board)
    (pref : Option ((Nat × Nat) × (Nat × Nat))) (b' : Board) (d : Nat)
    (h : resolveStep o pass b pref = some (b', d)) : 1 ≤ d := by
  obtain ⟨_, hd, _, hwc⟩ := resolveStep_some_shape o pass b pref b' d h
  rw [hd]
  exact Finset.card_pos.mpr (Finset.nonempty_iff_ne_empty.mpr hwc)

/-- C2 witness: the first pass on the small-run board clears three cells. -/
theorem C2_witness :
    1 ≤ ((resolveStep zeroOracle 0 smallRunBoard none).map Prod.snd).getD 0 := by
  have hval : (resolveStep zeroOracle 0 smallRunBoard none).map Prod.snd =
      some 3 := by decide
  cases he : resolveStep zeroOracle 0 smallRunBoard none with
  | none =>
    rw [he] at hval
    cases hval
  | some r =>
    have h1 := C2_pass_clears_at_least_one zeroOracle 0 smallRunBoard none
      r.1 r.2 (by rw [he])
    rw [he] at hval
    simp only [Option.map_some'] at hval
    simp only [Option.map_some', Option.getD_some]
    exact h1

end Spojovacka
